import Mathlib

/-!
Formal model of the SlrLib manual-memory core: the raw allocation layer
(`Allocation.hpp`), the reference-counted shared owner (`SharedPointer.hpp`)
and the growable sequence container (`DynamicArray.hpp`), with proofs about
their documented contracts.  Machine pointers are modelled as `Nat`
addresses wrapped in `Option` (`none` = `nullptr`), the system allocator as
an explicit oracle argument, and the IEEE-754 `double` arithmetic of the
container growth policy as exact integer arithmetic with round-to-nearest,
ties-to-even at 53 significant bits.
-/

namespace Slr

/-- Return status of every fallible operation (`Exception.hpp`, `enum class Status`). -/
inductive Status where
  | SUCCESS
  | FAIL
deriving DecidableEq

/-- Severity passed to the logging sink (`Logger.hpp`, `enum class LogLevel`). -/
inductive LogLevel where
  | ERROR
  | WARNING
  | INFO
deriving DecidableEq

/-- Number of bytes of the `size` type (`Types.hpp`: `using size = decltype(sizeof(0))`),
8 on the x64 target; also the size of a pointer, so `sizeof(size*) = sizeofSize`. -/
def sizeofSize : Nat := 8

/-- Model of `MemAlloc(_allocation, _bytes)` (`Allocation.hpp` lines 25-50).
`mallocResult` is the address `std::malloc` would return for this request
(`none` models a system allocation failure).  The result triple is the
returned `Status`, the value assigned to the output parameter `_allocation`
(meaningful only on success; `none` here stands for "unassigned/disregarded"),
and the severities of the log messages emitted.  A request of 0 bytes trips
`SLR_ASSERT_ERROR` (log ERROR, return FAIL) before any allocation; otherwise
`_bytes + sizeof(size)` raw bytes are obtained, the hidden header is written,
and the caller receives the address one header past the malloc block. -/
def MemAlloc (bytes : Nat) (mallocResult : Option Nat) : Status × Option Nat × List LogLevel :=
  if bytes = 0 then
    (Status.FAIL, none, [LogLevel.ERROR])
  else
    match mallocResult with
    | none => (Status.FAIL, none, [LogLevel.ERROR])
    | some a => (Status.SUCCESS, some (a + sizeofSize), [])

/-- Model of `MemFree(_allocation)` (`Allocation.hpp` lines 101-119).  The
argument is the caller's pointer (`none` = `nullptr`); the result gives the
returned `Status`, the pointer's value after the call, and the severities of
the log messages emitted.  A null input trips `SLR_ASSERT_WARNING`, which
logs at WARNING severity and then returns `Status::FAIL` without touching
the pointer (it stays null); a non-null input is freed, the pointer is set
to `nullptr`, and `Status::SUCCESS` is returned with nothing logged. -/
def MemFree (allocation : Option Nat) : Status × Option Nat × List LogLevel :=
  match allocation with
  | none => (Status.FAIL, none, [LogLevel.WARNING])
  | some _ => (Status.SUCCESS, none, [])

/-- The two pointer members of `Shared<T>` (`SharedPointer.hpp` lines 158-169):
`referenceCount` points at the shared count word and `value` at the payload
(`none` models `nullptr`).  The class maintains both as null or both as
non-null with `referenceCount = value + sizeof(T)`. -/
structure SharedHandle where
  referenceCount : Option Nat
  value : Option Nat
deriving DecidableEq

/-- Model of `Shared<T>::IsHoldingReference` (`SharedPointer.hpp` lines 98-103):
the output flag is `(value != nullptr) && (referenceCount != nullptr)`. -/
def SharedHandle.IsHoldingReference (sh : SharedHandle) : Bool :=
  sh.value.isSome && sh.referenceCount.isSome

/-- Observable effects of one `CreateShared<T>` call (`SharedPointer.hpp`
lines 219-252) for a payload whose constructed value is recorded as type `α`.
`allocated` lists the usable byte counts of the blocks successfully obtained
through `MemAlloc` during the call, `countWrites` the (address, value) stores
to the reference-count word, and `constructions` the (address, value)
in-place payload constructions performed. -/
structure CreateEffect (α : Type) where
  status : Status
  shared : SharedHandle
  allocated : List Nat
  countWrites : List (Nat × Nat)
  constructions : List (Nat × α)
deriving DecidableEq

/-- Model of `CreateShared<T>(_shared, _arguments...)` (`SharedPointer.hpp`
lines 219-252).  `sizeofT` is `sizeof(_Type)`; the count type
`ReferenceCountType` is the pointer type `size*`, so the request is
`sizeof(_Type) + sizeofSize` bytes.  `payload` is the value that
`_Type(_arguments...)` constructs, `sh` the handle object passed by
reference, and `mallocResult` models the underlying `std::malloc`.  On
allocation failure `SLR_ASSERT_ERROR` jumps to the exception label and the
call returns FAIL with the handle's members untouched and nothing
constructed.  On success `value` points at the start of the block,
`referenceCount` at `value + sizeof(_Type)`, the count word is set to 1 and
the payload is constructed in place at `value`. -/
def CreateShared (sizeofT : Nat) (payload : α) (sh : SharedHandle) (mallocResult : Option Nat) : CreateEffect α :=
  match MemAlloc (sizeofT + sizeofSize) mallocResult with
  | (Status.SUCCESS, some allocation, _) =>
      { status := Status.SUCCESS
        shared := { value := some allocation, referenceCount := some (allocation + sizeofT) }
        allocated := [sizeofT + sizeofSize]
        countWrites := [(allocation + sizeofT, 1)]
        constructions := [(allocation, payload)] }
  | _ =>
      { status := Status.FAIL
        shared := sh
        allocated := []
        countWrites := []
        constructions := [] }

/-- C10: `MemFree` called with a null address returns `Status::FAIL` (not
success) after logging a WARNING, and leaves the caller's pointer unchanged
(still null); it frees, nulls the pointer and returns success exactly for a
non-null address. -/
theorem MemFree_null_fails_nonnull_frees :
    MemFree none = (Status.FAIL, none, [LogLevel.WARNING])
      ∧ ∀ a : Nat, MemFree (some a) = (Status.SUCCESS, none, []) :=
  ⟨rfl, fun _ => rfl⟩

/-- C3: for every payload, handle and allocator outcome, `CreateShared` on
success makes exactly one allocation, sized to hold the payload plus one
count word (`sizeof(T) + 8` usable bytes, where 8 = `sizeof(size)`), stores
the count immediately after the payload (`referenceCount = value + sizeof(T)`),
initializes the count to 1, constructs the payload in place from the given
arguments, and leaves the handle holding a reference; it fails exactly when
the underlying allocation fails, in which case nothing is constructed and
the handle is untouched. -/
theorem CreateShared_contract (α : Type) (sizeofT : Nat) (payload : α) (sh : SharedHandle) (mallocResult : Option Nat) :
    match mallocResult with
    | some a =>
        CreateShared sizeofT payload sh mallocResult =
            { status := Status.SUCCESS
              shared := { value := some (a + sizeofSize), referenceCount := some (a + sizeofSize + sizeofT) }
              allocated := [sizeofT + sizeofSize]
              countWrites := [(a + sizeofSize + sizeofT, 1)]
              constructions := [(a + sizeofSize, payload)] }
          ∧ (CreateShared sizeofT payload sh mallocResult).shared.IsHoldingReference = true
    | none =>
        CreateShared sizeofT payload sh mallocResult =
          { status := Status.FAIL, shared := sh, allocated := [], countWrites := [], constructions := [] } := by
  have hnz : sizeofT + sizeofSize ≠ 0 := by simp [sizeofSize]
  cases mallocResult with
  | none =>
      simp only [CreateShared, MemAlloc, if_neg hnz]
  | some a =>
      refine ⟨?_, ?_⟩ <;>
        simp only [CreateShared, MemAlloc, if_neg hnz, SharedHandle.IsHoldingReference,
          Option.isSome_some, Bool.and_self]

/-- Fuel-driven floor of the base-2 logarithm.  The fuel only bounds the
recursion depth; `log2fuel f n` is the usual `floor (log2 n)` whenever
`n ≤ f` (and `0 < n`). -/
def log2fuel : Nat → Nat → Nat
  | 0, _ => 0
  | fuel + 1, n => if n < 2 then 0 else log2fuel fuel (n / 2) + 1

/-- Floor of the base-2 logarithm (`log2fuel` with always-sufficient fuel). -/
def floorLog2 (n : Nat) : Nat := log2fuel n n

theorem log2fuel_bounds (f : Nat) : ∀ n : Nat, 0 < n → n ≤ f →
    2 ^ log2fuel f n ≤ n ∧ n < 2 ^ (log2fuel f n + 1) := by
  induction f with
  | zero => intro n hn hf; omega
  | succ f ih =>
      intro n hn hf
      by_cases h2 : n < 2
      · have hn1 : n = 1 := by omega
        subst hn1
        constructor <;> simp [log2fuel]
      · have hrec := ih (n / 2) (by omega) (by omega)
        have hstep : log2fuel (f + 1) n = log2fuel f (n / 2) + 1 := by
          simp [log2fuel, h2]
        rw [hstep]
        set L := log2fuel f (n / 2) with hLdef
        have hA1 : 2 ^ L * 2 ≤ n / 2 * 2 := Nat.mul_le_mul_right 2 hrec.1
        have hA2 : n / 2 < 2 ^ (L + 1) := hrec.2
        have hp1 : 2 ^ (L + 1) = 2 ^ L * 2 := by ring
        have hp2 : 2 ^ (L + 1 + 1) = 2 ^ (L + 1) * 2 := by ring
        have hdiv : n / 2 * 2 ≤ n := Nat.div_mul_le_self n 2
        have hdiv2 : n < n / 2 * 2 + 2 := by omega
        exact ⟨by omega, by omega⟩

theorem pow_floorLog2_le {n : Nat} (hn : 0 < n) : 2 ^ floorLog2 n ≤ n :=
  (log2fuel_bounds n n hn le_rfl).1

theorem lt_pow_floorLog2_succ {n : Nat} (hn : 0 < n) : n < 2 ^ (floorLog2 n + 1) :=
  (log2fuel_bounds n n hn le_rfl).2

/-- Round a natural number to at most 53 significant binary digits with the
IEEE-754 default rule: round to nearest, ties to even.  This is exactly the
significand rounding that `double` arithmetic applies: a value whose exact
result is `n` scaled by a fixed power of two is stored as `roundSig53 n`
scaled by that same power (absent overflow/underflow), because the doubles
surrounding such a value form the grid of multiples of `2 ^ (floorLog2 n - 52)`. -/
def roundSig53 (n : Nat) : Nat :=
  if n < 2 ^ 53 then n
  else
    if 2 * (n % 2 ^ (floorLog2 n - 52)) < 2 ^ (floorLog2 n - 52) then
      n / 2 ^ (floorLog2 n - 52) * 2 ^ (floorLog2 n - 52)
    else if 2 ^ (floorLog2 n - 52) < 2 * (n % 2 ^ (floorLog2 n - 52)) then
      (n / 2 ^ (floorLog2 n - 52) + 1) * 2 ^ (floorLog2 n - 52)
    else if n / 2 ^ (floorLog2 n - 52) % 2 = 0 then
      n / 2 ^ (floorLog2 n - 52) * 2 ^ (floorLog2 n - 52)
    else
      (n / 2 ^ (floorLog2 n - 52) + 1) * 2 ^ (floorLog2 n - 52)

/-- The rounded value drops at most one unit of the scale
`2 ^ (floorLog2 n - 52) ≤ n / 2 ^ 52`, so `roundSig53 n ≥ n - n / 2 ^ 52`
(stated without natural subtraction). -/
theorem roundSig53_lower (n : Nat) : n ≤ roundSig53 n + n / 2 ^ 52 := by
  rw [roundSig53]
  by_cases hsmall : n < 2 ^ 53
  · rw [if_pos hsmall]; omega
  rw [if_neg hsmall]
  have hn : 0 < n := by
    have h0 : (0:Nat) < 2 ^ 53 := Nat.two_pow_pos 53
    omega
  have hL : 53 ≤ floorLog2 n := by
    by_contra hlt
    have h1 : floorLog2 n + 1 ≤ 53 := by omega
    have h2 : n < 2 ^ (floorLog2 n + 1) := lt_pow_floorLog2_succ hn
    have h3 : (2:Nat) ^ (floorLog2 n + 1) ≤ 2 ^ 53 := Nat.pow_le_pow_right (by omega) h1
    omega
  set E := floorLog2 n - 52 with hE
  have hee : E + 52 = floorLog2 n := by omega
  have hpow : 2 ^ E * 2 ^ 52 ≤ n := by
    calc 2 ^ E * 2 ^ 52 = 2 ^ (E + 52) := by rw [pow_add]
      _ = 2 ^ floorLog2 n := by rw [hee]
      _ ≤ n := pow_floorLog2_le hn
  have hediv : 2 ^ E ≤ n / 2 ^ 52 :=
    (Nat.le_div_iff_mul_le (Nat.two_pow_pos 52)).2 hpow
  have hqr : n / 2 ^ E * 2 ^ E + n % 2 ^ E = n := Nat.div_add_mod' n (2 ^ E)
  have hrlt : n % 2 ^ E < 2 ^ E := Nat.mod_lt n (Nat.two_pow_pos E)
  have hmul : (n / 2 ^ E + 1) * 2 ^ E = n / 2 ^ E * 2 ^ E + 2 ^ E := by ring
  split_ifs <;> omega

/-- Numerator of the IEEE-754 `double` nearest to the source constant
`growthFactor = 1.4` (`DynamicArray.hpp` line 358): that double is exactly
`3152519739159347 / 2 ^ 51` (about `1.39999999999999991`). -/
def growthNumerator : Nat := 3152519739159347

/-- New capacity chosen by `DynamicArray::ExpandCapacity` (`DynamicArray.hpp`
lines 393-403): the source computes `(size)(this->capacity * this->growthFactor) + 1`.
`capacity` (a `size`, i.e. `u64`) is first converted to `double`, which
rounds it to 53 significant bits (`roundSig53 c`); the multiplication by the
double `1.4 = growthNumerator / 2 ^ 51` is correctly rounded, and because
the scale `2 ^ 51` is fixed this equals `roundSig53 (roundSig53 c * growthNumerator)`
over the same scale; the `(size)` cast truncates toward zero, i.e. divides
by `2 ^ 51` rounding down; finally 1 is added as an integer. -/
def newCapacityFor (c : Nat) : Nat :=
  roundSig53 (roundSig53 c * growthNumerator) / 2 ^ 51 + 1

/-- Growth policy modelled from the spec sentence "new capacity =
floor(currentCapacity × 1.4) + 1" read over exact real arithmetic:
`floor (c * 1.4) = floor (7 * c / 5)`, which is `7 * c / 5` in natural
division. -/
def specNewCapacity (c : Nat) : Nat := 7 * c / 5 + 1

/-- The expansion strictly increases the capacity, for every current
capacity: the relative rounding error of the two `roundSig53` applications
is far below the factor 1.4. -/
theorem lt_newCapacityFor (c : Nat) : c < newCapacityFor c := by
  have h52 : (0:Nat) < 2 ^ 52 := Nat.two_pow_pos 52
  have h51 : (0:Nat) < 2 ^ 51 := Nat.two_pow_pos 51
  set c1 := roundSig53 c with hc1
  set P := c1 * growthNumerator with hP
  set R := roundSig53 P with hR
  have hclow : c ≤ c1 + c / 2 ^ 52 := roundSig53_lower c
  have hPlow : P ≤ R + P / 2 ^ 52 := roundSig53_lower P
  -- the division error of P is at most c1 because growthNumerator < 2 ^ 52
  have hPdiv : P / 2 ^ 52 ≤ c1 := by
    have hm : growthNumerator < 2 ^ 52 := by decide
    have : P < (c1 + 1) * 2 ^ 52 := by
      calc P = c1 * growthNumerator := rfl
        _ < (c1 + 1) * 2 ^ 52 := by
            have h1 : c1 * growthNumerator ≤ c1 * 2 ^ 52 := Nat.mul_le_mul_left c1 (le_of_lt hm)
            have h2 : c1 * 2 ^ 52 < (c1 + 1) * 2 ^ 52 := by
              have := h52; nlinarith
            omega
    have := (Nat.div_lt_iff_lt_mul h52).2 this
    omega
  -- c / 2 ^ 52 weighted by 2 ^ 51 is at most c / 2
  have hhalf : c / 2 ^ 52 * 2 ^ 51 ≤ c / 2 := by
    have h1 : c / 2 ^ 52 * 2 ^ 51 ≤ c * 2 ^ 51 / 2 ^ 52 := by
      rw [Nat.le_div_iff_mul_le h52]
      calc c / 2 ^ 52 * 2 ^ 51 * 2 ^ 52 = c / 2 ^ 52 * 2 ^ 52 * 2 ^ 51 := by ring
        _ ≤ c * 2 ^ 51 := Nat.mul_le_mul_right _ (Nat.div_mul_le_self c (2 ^ 52))
    have h2 : c * 2 ^ 51 / 2 ^ 52 = c / 2 := by
      have ha : (2:Nat) ^ 52 = 2 ^ 51 * 2 := by ring
      rw [ha, ← Nat.div_div_eq_div_mul]
      congr 1
      exact Nat.mul_div_cancel c h51
    omega
  -- c / 2 ≤ c1
  have hc2 : c / 2 ≤ c1 := by
    have : c / 2 ^ 52 ≤ c / 2 := by
      have : (2:Nat) ≤ 2 ^ 52 := by
        calc (2:Nat) = 2 ^ 1 := by ring
          _ ≤ 2 ^ 52 := Nat.pow_le_pow_right (by omega) (by omega)
      exact Nat.div_le_div_left this (by omega)
    omega
  -- main chain: c * 2 ^ 51 ≤ R
  have hmain : c * 2 ^ 51 ≤ R := by
    have step1 : c * 2 ^ 51 ≤ c1 * 2 ^ 51 + c / 2 := by
      calc c * 2 ^ 51 ≤ (c1 + c / 2 ^ 52) * 2 ^ 51 := Nat.mul_le_mul_right _ hclow
        _ = c1 * 2 ^ 51 + c / 2 ^ 52 * 2 ^ 51 := by ring
        _ ≤ c1 * 2 ^ 51 + c / 2 := by omega
    have step2 : c1 * 2 ^ 51 + c / 2 ≤ c1 * (2 ^ 51 + 1) := by
      have : c1 * (2 ^ 51 + 1) = c1 * 2 ^ 51 + c1 := by ring
      omega
    have step3 : c1 * (2 ^ 51 + 1) ≤ c1 * (growthNumerator - 1) := by
      apply Nat.mul_le_mul_left
      have : (2:Nat) ^ 51 + 1 ≤ growthNumerator - 1 := by decide
      exact this
    have step4 : c1 * (growthNumerator - 1) + c1 = P := by
      have hg : (1:Nat) ≤ growthNumerator := by decide
      calc c1 * (growthNumerator - 1) + c1 = c1 * (growthNumerator - 1 + 1) := by ring
        _ = c1 * growthNumerator := by rw [Nat.sub_add_cancel hg]
    have step5 : P ≤ R + c1 := by omega
    omega
  have : c ≤ R / 2 ^ 51 := (Nat.le_div_iff_mul_le h51).2 hmain
  calc c ≤ R / 2 ^ 51 := this
    _ < R / 2 ^ 51 + 1 := by omega
    _ = newCapacityFor c := rfl

/-- State of a `DynamicArray<T>` (`DynamicArray.hpp` lines 325-341):
`buffer` holds the live, constructed elements occupying slots
`[0, elements)` — the member `elements` is `buffer.length` here; slots
`[elements, capacity)` of the underlying allocation are reserved but
uninitialized and carry no observable value, so they are not represented.
`capacity = 0` coincides with `buffer == nullptr` (no allocation). -/
structure DynArray (α : Type) where
  buffer : List α
  capacity : Nat
deriving DecidableEq

/-- Model of `DynamicArray::SetCapacity(_elements)` (`DynamicArray.hpp`
lines 221-277), with `allocOk` the outcome of the underlying
`MemAlloc`/`MemRealloc` call if one is attempted.  Equal capacity: no-op
success.  Zero: `DeleteAllocation` frees the buffer and zeroes `capacity`
and `elements` (the allocation exists since `capacity ≠ 0`).  Otherwise the
buffer is (re)allocated to `_elements * elementSize` bytes; on failure the
original state is kept and FAIL returned; on success `capacity := _elements`
and, when shrinking below the element count, the source sets
`elements = initialElementsCount - (initialElementsCount - capacity)`,
i.e. `min elements _elements` — together the live prefix becomes
`buffer.take _elements` (discarded elements get no destructor call). -/
def SetCapacity (a : DynArray α) (n : Nat) (allocOk : Bool) : Status × DynArray α :=
  if n = a.capacity then (Status.SUCCESS, a)
  else if n = 0 then (Status.SUCCESS, ⟨[], 0⟩)
  else if allocOk then (Status.SUCCESS, ⟨a.buffer.take n, n⟩)
  else (Status.FAIL, a)

/-- Model of `DynamicArray::ExpandCapacity` (`DynamicArray.hpp` lines
393-403): `SetCapacity((size)(this->capacity * this->growthFactor) + 1)`,
passing through the status. -/
def ExpandCapacity (a : DynArray α) (allocOk : Bool) : Status × DynArray α :=
  SetCapacity a (newCapacityFor a.capacity) allocOk

/-- Model of `DynamicArray::Add(_value)` (`DynamicArray.hpp` lines 75-98;
the rvalue overload at lines 46-69 is identical up to the move): if
`capacity - elements < 1` (unsigned subtraction, as in the source) the
capacity is expanded first, returning FAIL if that fails; then the element
is constructed in place at slot `elements` and `elements` is incremented. -/
def Add (a : DynArray α) (v : α) (allocOk : Bool) : Status × DynArray α :=
  if a.capacity - a.buffer.length < 1 then
    match ExpandCapacity a allocOk with
    | (Status.FAIL, a1) => (Status.FAIL, a1)
    | (Status.SUCCESS, a1) => (Status.SUCCESS, ⟨a1.buffer ++ [v], a1.capacity⟩)
  else
    (Status.SUCCESS, ⟨a.buffer ++ [v], a.capacity⟩)

/-- Model of `DynamicArray::Insert(_value, _index)` (`DynamicArray.hpp`
lines 104-154).  An index greater than `elements` trips `SLR_ASSERT_ERROR`:
FAIL, no mutation.  `_index == elements` calls `Add`.  Otherwise capacity is
expanded if required (FAIL passed through), the elements of `[_index, elements)`
are shifted one slot right from the highest index down, the new value is
constructed in slot `_index`, and `elements` is incremented — on the live
prefix this is exactly `take _index ++ _value :: drop _index`. -/
def Insert (a : DynArray α) (v : α) (i : Nat) (allocOk : Bool) : Status × DynArray α :=
  if a.buffer.length < i then (Status.FAIL, a)
  else if i = a.buffer.length then Add a v allocOk
  else
    if a.capacity - a.buffer.length < 1 then
      match ExpandCapacity a allocOk with
      | (Status.FAIL, a1) => (Status.FAIL, a1)
      | (Status.SUCCESS, a1) => (Status.SUCCESS, ⟨a1.buffer.take i ++ v :: a1.buffer.drop i, a1.capacity⟩)
    else
      (Status.SUCCESS, ⟨a.buffer.take i ++ v :: a.buffer.drop i, a.capacity⟩)

/-- Model of `DynamicArray::Remove(_index)` (`DynamicArray.hpp` lines
161-183).  An index not below `elements` trips `SLR_ASSERT_ERROR`: FAIL, no
mutation.  Otherwise the element at `_index` is destroyed, every element of
`[_index + 1, elements)` is moved one slot left, and `elements` is
decremented — on the live prefix this is `take _index ++ drop (_index + 1)`. -/
def Remove (a : DynArray α) (i : Nat) : Status × DynArray α :=
  if i < a.buffer.length then
    (Status.SUCCESS, ⟨a.buffer.take i ++ a.buffer.drop (i + 1), a.capacity⟩)
  else (Status.FAIL, a)

/-- Model of `DynamicArray::RemoveAll` (`DynamicArray.hpp` lines 188-201):
destroys every live element and sets `elements` to 0; capacity unchanged. -/
def RemoveAll (a : DynArray α) : Status × DynArray α :=
  (Status.SUCCESS, ⟨[], a.capacity⟩)

/-- Model of `DynamicArray::FitCapacityToElements` (`DynamicArray.hpp`
lines 206-212): calls `SetCapacity(elements)` but ignores its status and
always returns SUCCESS. -/
def FitCapacityToElements (a : DynArray α) (allocOk : Bool) : Status × DynArray α :=
  (Status.SUCCESS, (SetCapacity a a.buffer.length allocOk).2)

/-- Model of `DynamicArray::GetSize` (`DynamicArray.hpp` lines 308-313). -/
def GetSize (a : DynArray α) : Status × Nat :=
  (Status.SUCCESS, a.buffer.length)

/-- Model of `DynamicArray::GetCapacity` (`DynamicArray.hpp` lines 318-323). -/
def GetCapacity (a : DynArray α) : Status × Nat :=
  (Status.SUCCESS, a.capacity)

/-- One mutating call on a `DynamicArray`, with the allocator outcome for
the operations that may allocate. -/
inductive DOp (α : Type) where
  | add (v : α) (allocOk : Bool)
  | insert (v : α) (i : Nat) (allocOk : Bool)
  | remove (i : Nat)
  | removeAll
  | setCapacity (n : Nat) (allocOk : Bool)
  | fitCapacity (allocOk : Bool)
deriving DecidableEq

/-- Dispatch one container operation. -/
def applyOp (a : DynArray α) : DOp α → Status × DynArray α
  | .add v ok => Add a v ok
  | .insert v i ok => Insert a v i ok
  | .remove i => Remove a i
  | .removeAll => RemoveAll a
  | .setCapacity n ok => SetCapacity a n ok
  | .fitCapacity ok => FitCapacityToElements a ok

/-- Run a sequence of container operations, threading the state (statuses
are reported to the caller but do not interrupt the sequence). -/
def runD (a : DynArray α) : List (DOp α) → DynArray α
  | [] => a
  | op :: ops => runD (applyOp a op).2 ops

/-- A freshly constructed `DynamicArray` (`DynamicArray() = default`):
no allocation, no elements. -/
def emptyArray (α : Type) : DynArray α := ⟨[], 0⟩

theorem SetCapacity_inv (a : DynArray α) (n : Nat) (ok : Bool)
    (h : a.buffer.length ≤ a.capacity) :
    (SetCapacity a n ok).2.buffer.length ≤ (SetCapacity a n ok).2.capacity := by
  unfold SetCapacity
  split_ifs <;> simp [List.length_take] <;> omega

theorem ExpandCapacity_true (a : DynArray α) (h : a.buffer.length ≤ a.capacity) :
    ExpandCapacity a true = (Status.SUCCESS, ⟨a.buffer, newCapacityFor a.capacity⟩) := by
  have hgt := lt_newCapacityFor a.capacity
  unfold ExpandCapacity SetCapacity
  rw [if_neg (by omega), if_neg (by omega), if_pos rfl]
  have htake : a.buffer.take (newCapacityFor a.capacity) = a.buffer :=
    List.take_of_length_le (by omega)
  rw [htake]

theorem ExpandCapacity_false (a : DynArray α) :
    ExpandCapacity a false = (Status.FAIL, a) := by
  have hgt := lt_newCapacityFor a.capacity
  unfold ExpandCapacity SetCapacity
  rw [if_neg (by omega), if_neg (by omega), if_neg (by simp)]

theorem Add_true (a : DynArray α) (v : α) (h : a.buffer.length ≤ a.capacity) :
    (Add a v true).1 = Status.SUCCESS
  ∧ (Add a v true).2.buffer = a.buffer ++ [v]
  ∧ (Add a v true).2.buffer.length ≤ (Add a v true).2.capacity := by
  have hgt := lt_newCapacityFor a.capacity
  unfold Add
  by_cases hfull : a.capacity - a.buffer.length < 1
  · rw [if_pos hfull, ExpandCapacity_true a h]
    refine ⟨rfl, rfl, ?_⟩
    simp only [List.length_append, List.length_cons, List.length_nil]
    omega
  · rw [if_neg hfull]
    refine ⟨rfl, rfl, ?_⟩
    simp only [List.length_append, List.length_cons, List.length_nil]
    omega

theorem applyOp_inv (a : DynArray α) (op : DOp α) (h : a.buffer.length ≤ a.capacity) :
    (applyOp a op).2.buffer.length ≤ (applyOp a op).2.capacity := by
  cases op with
  | add v ok =>
      cases ok with
      | true => exact (Add_true a v h).2.2
      | false =>
          show (Add a v false).2.buffer.length ≤ (Add a v false).2.capacity
          unfold Add
          by_cases hfull : a.capacity - a.buffer.length < 1
          · rw [if_pos hfull, ExpandCapacity_false a]
            exact h
          · rw [if_neg hfull]
            simp only [List.length_append, List.length_cons, List.length_nil]
            omega
  | insert v i ok =>
      show (Insert a v i ok).2.buffer.length ≤ (Insert a v i ok).2.capacity
      unfold Insert
      by_cases h1 : a.buffer.length < i
      · rw [if_pos h1]; exact h
      rw [if_neg h1]
      by_cases h2 : i = a.buffer.length
      · rw [if_pos h2]
        cases ok with
        | true => exact (Add_true a v h).2.2
        | false =>
            unfold Add
            by_cases hfull : a.capacity - a.buffer.length < 1
            · rw [if_pos hfull, ExpandCapacity_false a]
              exact h
            · rw [if_neg hfull]
              simp only [List.length_append, List.length_cons, List.length_nil]
              omega
      · rw [if_neg h2]
        have hilt : i < a.buffer.length := by omega
        have hlen : (a.buffer.take i ++ v :: a.buffer.drop i).length = a.buffer.length + 1 := by
          simp only [List.length_append, List.length_take, List.length_cons, List.length_drop]
          omega
        by_cases hfull : a.capacity - a.buffer.length < 1
        · rw [if_pos hfull]
          cases ok with
          | true =>
              rw [ExpandCapacity_true a h]
              have hgt := lt_newCapacityFor a.capacity
              simpa [hlen] using by omega
          | false =>
              rw [ExpandCapacity_false a]
              exact h
        · rw [if_neg hfull]
          simpa [hlen] using by omega
  | remove i =>
      show (Remove a i).2.buffer.length ≤ (Remove a i).2.capacity
      unfold Remove
      by_cases h1 : i < a.buffer.length
      · rw [if_pos h1]
        simp only [List.length_append, List.length_take, List.length_drop]
        omega
      · rw [if_neg h1]
        exact h
  | removeAll =>
      show (RemoveAll a).2.buffer.length ≤ (RemoveAll a).2.capacity
      simp [RemoveAll]
  | setCapacity n ok => exact SetCapacity_inv a n ok h
  | fitCapacity ok =>
      show (FitCapacityToElements a ok).2.buffer.length ≤ (FitCapacityToElements a ok).2.capacity
      exact SetCapacity_inv a a.buffer.length ok h

theorem runD_inv (ops : List (DOp α)) : ∀ a : DynArray α,
    a.buffer.length ≤ a.capacity → (runD a ops).buffer.length ≤ (runD a ops).capacity := by
  induction ops with
  | nil => intro a h; exact h
  | cons op ops ih =>
      intro a h
      exact ih (applyOp a op).2 (applyOp_inv a op h)

theorem runD_addN (v : α) (n : Nat) : ∀ a : DynArray α, a.buffer.length ≤ a.capacity →
    (runD a (List.replicate n (DOp.add v true))).buffer = a.buffer ++ List.replicate n v := by
  induction n with
  | zero => intro a h; simp [runD]
  | succ n ih =>
      intro a h
      rw [List.replicate_succ]
      show (runD (applyOp a (DOp.add v true)).2 (List.replicate n (DOp.add v true))).buffer = _
      have hadd := Add_true a v h
      have happ : (applyOp a (DOp.add v true)).2 = (Add a v true).2 := rfl
      rw [happ, ih (Add a v true).2 hadd.2.2, hadd.2.1, List.replicate_succ]
      simp

/-- C5: the length/capacity invariant `0 ≤ length ≤ capacity` holds after
every sequence of container operations from a fresh container; `Add` with a
working allocator always succeeds on an invariant-satisfying state; and
after N such successful `Add` calls on a fresh container `GetSize` yields N
and `GetCapacity` yields at least N. -/
theorem dynArray_invariant_and_adds :
    (∀ (α : Type) (ops : List (DOp α)),
        (runD (emptyArray α) ops).buffer.length ≤ (runD (emptyArray α) ops).capacity)
  ∧ (∀ (α : Type) (a : DynArray α) (v : α),
        a.buffer.length ≤ a.capacity → (Add a v true).1 = Status.SUCCESS)
  ∧ (∀ (α : Type) (v : α) (n : Nat),
        (GetSize (runD (emptyArray α) (List.replicate n (DOp.add v true)))).2 = n
      ∧ n ≤ (GetCapacity (runD (emptyArray α) (List.replicate n (DOp.add v true)))).2) := by
  refine ⟨?_, ?_, ?_⟩
  · intro α ops
    exact runD_inv ops (emptyArray α) (by simp [emptyArray])
  · intro α a v h
    exact (Add_true a v h).1
  · intro α v n
    have hbuf := runD_addN v n (emptyArray α) (by simp [emptyArray])
    have hsize : (GetSize (runD (emptyArray α) (List.replicate n (DOp.add v true)))).2 = n := by
      show (runD (emptyArray α) (List.replicate n (DOp.add v true))).buffer.length = n
      rw [hbuf]
      simp [emptyArray]
    refine ⟨hsize, ?_⟩
    have hinv := runD_inv (List.replicate n (DOp.add v true)) (emptyArray α) (by simp [emptyArray])
    show n ≤ (runD (emptyArray α) (List.replicate n (DOp.add v true))).capacity
    have : (runD (emptyArray α) (List.replicate n (DOp.add v true))).buffer.length = n := hsize
    omega

/-- C5 witness instance: on the state with elements `[5]` and capacity 2,
`Add` with a working allocator succeeds. -/
theorem dynArray_invariant_witness :
    ((⟨[5], 2⟩ : DynArray Nat).buffer.length ≤ (⟨[5], 2⟩ : DynArray Nat).capacity)
  ∧ (Add (⟨[5], 2⟩ : DynArray Nat) 6 true).1 = Status.SUCCESS :=
  ⟨by decide, dynArray_invariant_and_adds.2.1 Nat ⟨[5], 2⟩ 6 (by decide)⟩

theorem insertList_get (l : List α) (v : α) (i : Nat) (hi : i ≤ l.length) :
    (l.take i ++ v :: l.drop i).length = l.length + 1
  ∧ (∀ j : Nat, j < i → (l.take i ++ v :: l.drop i)[j]? = l[j]?)
  ∧ (l.take i ++ v :: l.drop i)[i]? = some v
  ∧ (∀ k : Nat, i ≤ k → (l.take i ++ v :: l.drop i)[k + 1]? = l[k]?) := by
  have hlt : (l.take i).length = i := by
    rw [List.length_take]
    exact Nat.min_eq_left hi
  refine ⟨?_, ?_, ?_, ?_⟩
  · simp only [List.length_append, hlt, List.length_cons, List.length_drop]
    omega
  · intro j hj
    rw [List.getElem?_append, hlt, if_pos hj, List.getElem?_take, if_pos hj]
  · rw [List.getElem?_append, hlt, if_neg (by omega), Nat.sub_self, List.getElem?_cons_zero]
  · intro k hk
    rw [List.getElem?_append, hlt, if_neg (by omega)]
    have hs : k + 1 - i = (k - i) + 1 := by omega
    rw [hs, List.getElem?_cons_succ, List.getElem?_drop]
    congr 1
    omega

theorem removeList_get (l : List α) (i : Nat) (hi : i < l.length) :
    (l.take i ++ l.drop (i + 1)).length + 1 = l.length
  ∧ (∀ j : Nat, j < i → (l.take i ++ l.drop (i + 1))[j]? = l[j]?)
  ∧ (∀ k : Nat, i ≤ k → (l.take i ++ l.drop (i + 1))[k]? = l[k + 1]?) := by
  have hlt : (l.take i).length = i := by
    rw [List.length_take]
    exact Nat.min_eq_left (by omega)
  refine ⟨?_, ?_, ?_⟩
  · simp only [List.length_append, hlt, List.length_drop]
    omega
  · intro j hj
    rw [List.getElem?_append, hlt, if_pos hj, List.getElem?_take, if_pos hj]
  · intro k hk
    rw [List.getElem?_append, hlt, if_neg (by omega), List.getElem?_drop]
    congr 1
    omega

/-- C6: `Insert(v, length)` is the very same call as `Add(v)` (identical
status and resulting state, for every allocator outcome); an index strictly
greater than `length` fails with no mutation; and a successful insert at
`index < length` (on an invariant-satisfying state) lengthens the array by
one, keeps elements below `index` in place, puts `v` at `index`, and shifts
each element of `[index, length)` one slot right. -/
theorem insert_contract (α : Type) (a : DynArray α) (v : α) (i : Nat) (ok : Bool) :
    Insert a v a.buffer.length ok = Add a v ok
  ∧ (a.buffer.length < i → Insert a v i ok = (Status.FAIL, a))
  ∧ (i < a.buffer.length → a.buffer.length ≤ a.capacity →
      (Insert a v i ok).1 = Status.SUCCESS →
        (Insert a v i ok).2.capacity = (if a.capacity - a.buffer.length < 1 then newCapacityFor a.capacity else a.capacity)
      ∧ (Insert a v i ok).2.buffer.length = a.buffer.length + 1
      ∧ (∀ j : Nat, j < i → ((Insert a v i ok).2.buffer)[j]? = (a.buffer)[j]?)
      ∧ ((Insert a v i ok).2.buffer)[i]? = some v
      ∧ (∀ k : Nat, i ≤ k → ((Insert a v i ok).2.buffer)[k + 1]? = (a.buffer)[k]?)) := by
  refine ⟨?_, ?_, ?_⟩
  · unfold Insert
    rw [if_neg (by omega), if_pos rfl]
  · intro h
    unfold Insert
    rw [if_pos h]
  · intro hilt hinv hsucc
    have hmid : Insert a v i ok =
        (if a.capacity - a.buffer.length < 1 then
          match ExpandCapacity a ok with
          | (Status.FAIL, a1) => (Status.FAIL, a1)
          | (Status.SUCCESS, a1) => (Status.SUCCESS, ⟨a1.buffer.take i ++ v :: a1.buffer.drop i, a1.capacity⟩)
        else
          (Status.SUCCESS, ⟨a.buffer.take i ++ v :: a.buffer.drop i, a.capacity⟩)) := by
      unfold Insert
      rw [if_neg (by omega), if_neg (by omega)]
    by_cases hfull : a.capacity - a.buffer.length < 1
    · rw [hmid, if_pos hfull] at hsucc ⊢
      cases ok with
      | false =>
          rw [ExpandCapacity_false a] at hsucc
          exact absurd hsucc (by simp)
      | true =>
          rw [ExpandCapacity_true a hinv]
          rw [if_pos hfull]
          have hget := insertList_get a.buffer v i (by omega)
          exact ⟨rfl, hget.1, hget.2.1, hget.2.2.1, hget.2.2.2⟩
    · rw [hmid, if_neg hfull]
      rw [if_neg hfull]
      have hget := insertList_get a.buffer v i (by omega)
      exact ⟨rfl, hget.1, hget.2.1, hget.2.2.1, hget.2.2.2⟩

/-- C6 witness instance: inserting 7 at index 1 of `[10, 20, 30]` (capacity
4) succeeds and yields `[10, 7, 20, 30]` position by position. -/
theorem insert_contract_witness :
    ((1 : Nat) < (⟨[10, 20, 30], 4⟩ : DynArray Nat).buffer.length
      ∧ (⟨[10, 20, 30], 4⟩ : DynArray Nat).buffer.length ≤ (⟨[10, 20, 30], 4⟩ : DynArray Nat).capacity
      ∧ (Insert (⟨[10, 20, 30], 4⟩ : DynArray Nat) 7 1 true).1 = Status.SUCCESS)
  ∧ ((Insert (⟨[10, 20, 30], 4⟩ : DynArray Nat) 7 1 true).2.capacity
        = (if (⟨[10, 20, 30], 4⟩ : DynArray Nat).capacity - (⟨[10, 20, 30], 4⟩ : DynArray Nat).buffer.length < 1 then newCapacityFor (⟨[10, 20, 30], 4⟩ : DynArray Nat).capacity else (⟨[10, 20, 30], 4⟩ : DynArray Nat).capacity)
      ∧ (Insert (⟨[10, 20, 30], 4⟩ : DynArray Nat) 7 1 true).2.buffer.length = (⟨[10, 20, 30], 4⟩ : DynArray Nat).buffer.length + 1
      ∧ (∀ j : Nat, j < 1 → ((Insert (⟨[10, 20, 30], 4⟩ : DynArray Nat) 7 1 true).2.buffer)[j]? = (((⟨[10, 20, 30], 4⟩ : DynArray Nat)).buffer)[j]?)
      ∧ ((Insert (⟨[10, 20, 30], 4⟩ : DynArray Nat) 7 1 true).2.buffer)[1]? = some 7
      ∧ (∀ k : Nat, 1 ≤ k → ((Insert (⟨[10, 20, 30], 4⟩ : DynArray Nat) 7 1 true).2.buffer)[k + 1]? = (((⟨[10, 20, 30], 4⟩ : DynArray Nat)).buffer)[k]?)) :=
  ⟨⟨by decide, by decide, by decide⟩,
    (insert_contract Nat ⟨[10, 20, 30], 4⟩ 7 1 true).2.2 (by decide) (by decide) (by decide)⟩

/-- C7: `Remove(i)` for `i < length` succeeds, destroys the element at `i`,
shifts each element of `[i + 1, length)` one slot left (preserving the
relative order), and decreases the length by exactly 1; for `i ≥ length` it
fails and performs no mutation. -/
theorem remove_contract (α : Type) (a : DynArray α) (i : Nat) :
    (a.buffer.length ≤ i → Remove a i = (Status.FAIL, a))
  ∧ (i < a.buffer.length →
        (Remove a i).1 = Status.SUCCESS
      ∧ (Remove a i).2.capacity = a.capacity
      ∧ (Remove a i).2.buffer.length + 1 = a.buffer.length
      ∧ (∀ j : Nat, j < i → ((Remove a i).2.buffer)[j]? = (a.buffer)[j]?)
      ∧ (∀ k : Nat, i ≤ k → ((Remove a i).2.buffer)[k]? = (a.buffer)[k + 1]?)) := by
  constructor
  · intro h
    unfold Remove
    rw [if_neg (by omega)]
  · intro h
    unfold Remove
    rw [if_pos h]
    have hget := removeList_get a.buffer i h
    exact ⟨rfl, rfl, hget.1, hget.2.1, hget.2.2⟩

/-- C7 witness instance: removing index 1 from `[10, 20, 30]` succeeds and
yields `[10, 30]` position by position. -/
theorem remove_contract_witness :
    ((1 : Nat) < (⟨[10, 20, 30], 3⟩ : DynArray Nat).buffer.length)
  ∧ ((Remove (⟨[10, 20, 30], 3⟩ : DynArray Nat) 1).1 = Status.SUCCESS
      ∧ (Remove (⟨[10, 20, 30], 3⟩ : DynArray Nat) 1).2.capacity = (⟨[10, 20, 30], 3⟩ : DynArray Nat).capacity
      ∧ (Remove (⟨[10, 20, 30], 3⟩ : DynArray Nat) 1).2.buffer.length + 1 = (⟨[10, 20, 30], 3⟩ : DynArray Nat).buffer.length
      ∧ (∀ j : Nat, j < 1 → ((Remove (⟨[10, 20, 30], 3⟩ : DynArray Nat) 1).2.buffer)[j]? = (((⟨[10, 20, 30], 3⟩ : DynArray Nat)).buffer)[j]?)
      ∧ (∀ k : Nat, 1 ≤ k → ((Remove (⟨[10, 20, 30], 3⟩ : DynArray Nat) 1).2.buffer)[k]? = (((⟨[10, 20, 30], 3⟩ : DynArray Nat)).buffer)[k + 1]?)) :=
  ⟨by decide, (remove_contract Nat ⟨[10, 20, 30], 3⟩ 1).2 (by decide)⟩

/-- C8 counterexample: at current capacity 45 the source computes
`(size)(45 * 1.4) + 1 = 63` — the double product `45 * 1.4` is
`62.99999999999999`, truncated to 62 — whereas the spec formula
`floor(45 × 1.4) + 1 = 64`.  The last conjunct evaluates the container's
own `ExpandCapacity` at capacity 45. -/
theorem growth_formula_counterexample :
    newCapacityFor 45 = 63
  ∧ specNewCapacity 45 = 64
  ∧ newCapacityFor 45 ≠ specNewCapacity 45
  ∧ (ExpandCapacity (⟨List.replicate 45 0, 45⟩ : DynArray Nat) true).2.capacity = 63 := by
  refine ⟨by decide, by decide, by decide, by decide⟩

/-- C8 amended: when expansion is required the new capacity is the
`double`-precision value of `capacity * 1.4` truncated to an integer, plus
one.  This agrees with the spec formula `floor(c × 1.4) + 1` for every
capacity below 45 but differs at 45 (63 instead of 64); it still strictly
increases the capacity from every value, and the first three expansions
from capacity 0 yield 1, 2, 3. -/
theorem growth_policy_amended :
    (∀ c : Nat, c < 45 → newCapacityFor c = specNewCapacity c)
  ∧ newCapacityFor 45 = 63
  ∧ specNewCapacity 45 = 64
  ∧ (∀ c : Nat, c < newCapacityFor c)
  ∧ (newCapacityFor 0 = 1 ∧ newCapacityFor 1 = 2 ∧ newCapacityFor 2 = 3)
  ∧ (∀ (α : Type) (a : DynArray α) (ok : Bool),
        ExpandCapacity a ok = SetCapacity a (newCapacityFor a.capacity) ok) :=
  ⟨by decide, by decide, by decide, lt_newCapacityFor, by decide, fun _ _ _ => rfl⟩

/-- C8 witness instance: the amended growth formula agreement applied at
capacity 10: `newCapacityFor 10 = 15 = floor(10 × 1.4) + 1`. -/
theorem growth_policy_amended_witness :
    (10 : Nat) < 45 ∧ newCapacityFor 10 = specNewCapacity 10 :=
  ⟨by decide, growth_policy_amended.1 10 (by decide)⟩

/-! Trace model of `Shared<T>` handle lifecycles (`SharedPointer.hpp`).
Handles are identified by `HandleId`, shared payload+count blocks by
`ObjId`.  A handle's observable content is the pair of its `value` and
`referenceCount` members; the class keeps both null or both non-null and
pointing into the same block, so a handle is modelled as `Option ObjId`.
Blocks are identified by distinct ids even after they are freed (a real
allocator may reuse addresses, but a freed block's id can no longer be
named by any live handle in the traces considered, so this renaming is
observation-equivalent). -/

abbrev HandleId := Nat

abbrev ObjId := Nat

/-- One constructor/destructor call on `Shared<T>` handles:
`construct h` is `Shared()` (lines 33-38), `createNew h o` a successful
`CreateShared` into the live handle `h` producing the fresh block `o`
(lines 219-252), `copy dst src` the copy constructor (lines 44-48, via
`NewReference`), `move dst src` the move constructor (lines 54-58, via
`TakeReference`), and `destroy h` the destructor `~Shared` (lines 64-92). -/
inductive SOp where
  | construct (h : HandleId)
  | createNew (h : HandleId) (o : ObjId)
  | copy (dst src : HandleId)
  | move (dst src : HandleId)
  | destroy (h : HandleId)
deriving DecidableEq

/-- Global state of a trace: the live handles with their referent, the live
shared blocks with their current count word, and the ordered lists of
payload-destructor invocations and `MemFree` releases performed so far. -/
structure SState where
  handles : List (HandleId × Option ObjId)
  heap : List (ObjId × Nat)
  destructed : List ObjId
  freed : List ObjId
deriving DecidableEq

/-- Association-list lookup by key. -/
def alGet (l : List (Nat × β)) (k : Nat) : Option β :=
  (l.find? (fun p => p.1 == k)).map Prod.snd

/-- Association-list update of every entry with the given key. -/
def alSet (l : List (Nat × β)) (k : Nat) (v : β) : List (Nat × β) :=
  l.map (fun p => if p.1 == k then (k, v) else p)

/-- Association-list removal of every entry with the given key. -/
def alRemove (l : List (Nat × β)) (k : Nat) : List (Nat × β) :=
  l.filter (fun p => p.1 != k)

/-- Number of live handles whose `value` points at block `o`. -/
def refsIn (hs : List (HandleId × Option ObjId)) (o : ObjId) : Nat :=
  (hs.filter (fun p => p.2 == some o)).length

/-- Number of live handles of a state referring to block `o`. -/
def SState.refs (s : SState) (o : ObjId) : Nat := refsIn s.handles o

/-- Transition function of the trace model; `none` marks an inapplicable
operation (constructing over a live handle, using a dead handle, touching
the count word of a freed block — the latter two are undefined behavior in
the source and excluded from valid traces).  Mirrors the source:
`construct` nulls both members; `createNew` overwrites the two members of
`h` with the fresh block and sets its count word to 1, touching nothing
else; `copy` copies both members and increments the count only when they
are non-null (`NewReference`); `move` takes both members over and nulls the
source (`TakeReference`), touching no count; `destroy` is a no-op on an
empty handle, otherwise decrements the count word and, exactly when it
reaches 0, runs the payload destructor and frees the single shared
allocation.  Count words of live blocks are at least 1 in every reachable
state, so natural subtraction models the `u64` decrement exactly. -/
def step (s : SState) : SOp → Option SState
  | .construct h =>
      match alGet s.handles h with
      | some _ => none
      | none => some { s with handles := (h, none) :: s.handles }
  | .createNew h o =>
      match alGet s.handles h with
      | none => none
      | some _ =>
          if (alGet s.heap o).isSome || s.destructed.contains o || s.freed.contains o then none
          else some { s with handles := alSet s.handles h (some o), heap := (o, 1) :: s.heap }
  | .copy dst src =>
      match alGet s.handles dst, alGet s.handles src with
      | none, some none => some { s with handles := (dst, none) :: s.handles }
      | none, some (some o) =>
          match alGet s.heap o with
          | none => none
          | some c =>
              some { s with handles := (dst, some o) :: s.handles, heap := alSet s.heap o (c + 1) }
      | _, _ => none
  | .move dst src =>
      match alGet s.handles dst, alGet s.handles src with
      | none, some sv => some { s with handles := (dst, sv) :: alSet s.handles src none }
      | _, _ => none
  | .destroy h =>
      match alGet s.handles h with
      | none => none
      | some none => some { s with handles := alRemove s.handles h }
      | some (some o) =>
          match alGet s.heap o with
          | none => none
          | some c =>
              if c - 1 = 0 then
                some { s with
                  handles := alRemove s.handles h
                  heap := alRemove s.heap o
                  destructed := s.destructed ++ [o]
                  freed := s.freed ++ [o] }
              else
                some { s with handles := alRemove s.handles h, heap := alSet s.heap o (c - 1) }

/-- Run a list of operations from a state; `none` if any step is invalid. -/
def run (s : SState) : List SOp → Option SState
  | [] => some s
  | op :: ops =>
      match step s op with
      | none => none
      | some s1 => run s1 ops

/-- The state before any handle exists. -/
def initState : SState := ⟨[], [], [], []⟩

/-- The blocks created by the `createNew` operations of a trace. -/
def createTargets (ops : List SOp) : List ObjId :=
  ops.filterMap (fun op =>
    match op with
    | .createNew _ o => some o
    | _ => none)

/-- Well-formedness: handle ids and block ids are not duplicated. -/
def Wf (s : SState) : Prop :=
  (s.handles.map Prod.fst).Nodup ∧ (s.heap.map Prod.fst).Nodup

/-- Block `o` has been brought into existence (it is live, or its
destructor has run). -/
def Created (s : SState) (o : ObjId) : Prop :=
  (alGet s.heap o).isSome = true ∨ 1 ≤ s.destructed.count o

/-- Lifecycle invariant of one block, over its four observables: the block
was never created (no count word, no referring handle, never destructed or
freed), or it is live with its count word equal to the number of live
referring handles (at least one), or it is dead (count word gone, no
referring handle, destructor ran exactly once and the allocation was
released exactly once). -/
def GoodState (heapVal : Option Nat) (refs destructedCount freedCount : Nat) : Prop :=
  (heapVal = none ∧ refs = 0 ∧ destructedCount = 0 ∧ freedCount = 0)
  ∨ (heapVal = some refs ∧ 1 ≤ refs ∧ destructedCount = 0 ∧ freedCount = 0)
  ∨ (heapVal = none ∧ refs = 0 ∧ destructedCount = 1 ∧ freedCount = 1)

/-- Lifecycle invariant of block `o` in state `s`. -/
def GoodObj (s : SState) (o : ObjId) : Prop :=
  GoodState (alGet s.heap o) (s.refs o) (s.destructed.count o) (s.freed.count o)

theorem alGet_cons (k1 : Nat) (v : β) (l : List (Nat × β)) (k : Nat) :
    alGet ((k1, v) :: l) k = if k1 = k then some v else alGet l k := by
  by_cases h : k1 = k
  · subst h
    simp [alGet, List.find?]
  · have hb : (k1 == k) = false := by simp [h]
    simp [alGet, List.find?, h, hb]

theorem alSet_cons (k1 : Nat) (v1 : β) (l : List (Nat × β)) (k : Nat) (v : β) :
    alSet ((k1, v1) :: l) k v = (if k1 = k then (k, v) else (k1, v1)) :: alSet l k v := by
  by_cases h : k1 = k
  · have hb : (k1 == k) = true := by simp [h]
    simp [alSet, hb, h]
  · have hb : (k1 == k) = false := by simp [h]
    simp [alSet, hb, h]

theorem alRemove_cons (k1 : Nat) (v1 : β) (l : List (Nat × β)) (k : Nat) :
    alRemove ((k1, v1) :: l) k = if k1 = k then alRemove l k else (k1, v1) :: alRemove l k := by
  by_cases h : k1 = k
  · have hb : (k1 != k) = false := by simp [h]
    simp [alRemove, List.filter, hb, h]
  · have hb : (k1 != k) = true := by simp [h]
    simp [alRemove, List.filter, hb, h]

theorem alGet_eq_none_iff {l : List (Nat × β)} {k : Nat} :
    alGet l k = none ↔ k ∉ l.map Prod.fst := by
  induction l with
  | nil => simp [alGet]
  | cons p l ih =>
      obtain ⟨k1, v⟩ := p
      rw [alGet_cons]
      by_cases h : k1 = k <;> simp [h, ih]
      omega

theorem alSet_keys (l : List (Nat × β)) (k : Nat) (v : β) :
    (alSet l k v).map Prod.fst = l.map Prod.fst := by
  induction l with
  | nil => rfl
  | cons p l ih =>
      obtain ⟨k1, v1⟩ := p
      by_cases h : k1 = k <;> simp [alSet, h] <;> simpa [alSet] using ih

theorem alGet_alSet_self {l : List (Nat × β)} {k : Nat} {w : β} (v : β)
    (h : alGet l k = some w) : alGet (alSet l k v) k = some v := by
  induction l with
  | nil => simp [alGet] at h
  | cons p l ih =>
      obtain ⟨k1, v1⟩ := p
      rw [alSet_cons]
      by_cases hk : k1 = k
      · rw [if_pos hk, alGet_cons, if_pos rfl]
      · rw [alGet_cons, if_neg hk] at h
        rw [if_neg hk, alGet_cons, if_neg hk]
        exact ih h

theorem alGet_alSet_ne {l : List (Nat × β)} {k k1 : Nat} (v : β) (h : k1 ≠ k) :
    alGet (alSet l k v) k1 = alGet l k1 := by
  induction l with
  | nil => rfl
  | cons p l ih =>
      obtain ⟨k2, v2⟩ := p
      rw [alSet_cons]
      by_cases hk : k2 = k
      · rw [if_pos hk, alGet_cons, alGet_cons, if_neg (by omega), if_neg (by omega)]
        exact ih
      · rw [if_neg hk, alGet_cons, alGet_cons]
        by_cases h2 : k2 = k1
        · rw [if_pos h2, if_pos h2]
        · rw [if_neg h2, if_neg h2]
          exact ih

theorem alSet_of_absent {l : List (Nat × β)} {k : Nat} (v : β)
    (h : alGet l k = none) : alSet l k v = l := by
  induction l with
  | nil => rfl
  | cons p l ih =>
      obtain ⟨k1, v1⟩ := p
      rw [alGet_cons] at h
      by_cases hk : k1 = k
      · rw [if_pos hk] at h
        exact absurd h (by simp)
      · rw [if_neg hk] at h
        rw [alSet_cons, if_neg hk, ih h]

theorem alGet_alRemove_self (l : List (Nat × β)) (k : Nat) :
    alGet (alRemove l k) k = none := by
  rw [alGet_eq_none_iff]
  intro hmem
  simp only [alRemove, List.mem_map, List.mem_filter] at hmem
  obtain ⟨p, ⟨_, hne⟩, hfst⟩ := hmem
  simp [bne_iff_ne, hfst] at hne

theorem alGet_alRemove_ne {l : List (Nat × β)} {k k1 : Nat} (h : k1 ≠ k) :
    alGet (alRemove l k) k1 = alGet l k1 := by
  induction l with
  | nil => rfl
  | cons p l ih =>
      obtain ⟨k2, v2⟩ := p
      rw [alRemove_cons]
      by_cases hk : k2 = k
      · rw [if_pos hk, alGet_cons, if_neg (by omega)]
        exact ih
      · rw [if_neg hk, alGet_cons, alGet_cons]
        by_cases h2 : k2 = k1
        · rw [if_pos h2, if_pos h2]
        · rw [if_neg h2, if_neg h2]
          exact ih

theorem alRemove_keys_sublist (l : List (Nat × β)) (k : Nat) :
    ((alRemove l k).map Prod.fst).Sublist (l.map Prod.fst) :=
  List.Sublist.map Prod.fst (List.filter_sublist l)

theorem refsIn_cons (h : HandleId) (v : Option ObjId) (hs : List (HandleId × Option ObjId)) (o : ObjId) :
    refsIn ((h, v) :: hs) o = (if v = some o then 1 else 0) + refsIn hs o := by
  by_cases hv : v = some o
  · have hb : (v == some o) = true := by simp [hv]
    simp [refsIn, List.filter, hb, hv, Nat.add_comm]
  · have hb : (v == some o) = false := by simp [hv]
    simp [refsIn, List.filter, hb, hv]

theorem alRemove_of_absent {l : List (Nat × β)} {k : Nat}
    (h : alGet l k = none) : alRemove l k = l := by
  induction l with
  | nil => rfl
  | cons p l ih =>
      obtain ⟨k1, v1⟩ := p
      rw [alGet_cons] at h
      by_cases hk : k1 = k
      · rw [if_pos hk] at h
        exact absurd h (by simp)
      · rw [if_neg hk] at h
        rw [alRemove_cons, if_neg hk, ih h]

theorem refsIn_eq_zero {hs : List (HandleId × Option ObjId)} {o : ObjId}
    (h : refsIn hs o = 0) : ∀ p ∈ hs, p.2 ≠ some o := by
  intro p hp hcontra
  induction hs with
  | nil => exact absurd hp (by simp)
  | cons q hs ih =>
      obtain ⟨k1, v1⟩ := q
      rw [refsIn_cons] at h
      rcases List.mem_cons.1 hp with heq | hmem
      · subst heq
        rw [if_pos hcontra] at h
        omega
      · exact ih (by omega) hmem

theorem refsIn_alSet {hs : List (HandleId × Option ObjId)} {h : HandleId} {w : Option ObjId}
    (v : Option ObjId) (o : ObjId)
    (hnd : (hs.map Prod.fst).Nodup) (hget : alGet hs h = some w) :
    refsIn (alSet hs h v) o + (if w = some o then 1 else 0)
      = refsIn hs o + (if v = some o then 1 else 0) := by
  induction hs with
  | nil => simp [alGet] at hget
  | cons p hs ih =>
      obtain ⟨k1, v1⟩ := p
      simp only [List.map_cons, List.nodup_cons] at hnd
      rw [alGet_cons] at hget
      rw [alSet_cons]
      by_cases hk : k1 = h
      · rw [if_pos hk] at hget ⊢
        have hw : v1 = w := by injection hget
        subst hw
        have habs : alGet hs h = none := by
          rw [alGet_eq_none_iff]
          rw [hk] at hnd
          exact hnd.1
        rw [alSet_of_absent v habs, refsIn_cons, refsIn_cons]
        omega
      · rw [if_neg hk] at hget ⊢
        rw [refsIn_cons, refsIn_cons]
        have := ih hnd.2 hget
        omega

theorem refsIn_alRemove {hs : List (HandleId × Option ObjId)} {h : HandleId} {w : Option ObjId}
    (o : ObjId)
    (hnd : (hs.map Prod.fst).Nodup) (hget : alGet hs h = some w) :
    refsIn (alRemove hs h) o + (if w = some o then 1 else 0) = refsIn hs o := by
  induction hs with
  | nil => simp [alGet] at hget
  | cons p hs ih =>
      obtain ⟨k1, v1⟩ := p
      simp only [List.map_cons, List.nodup_cons] at hnd
      rw [alGet_cons] at hget
      rw [alRemove_cons]
      by_cases hk : k1 = h
      · rw [if_pos hk] at hget ⊢
        have hw : v1 = w := by injection hget
        subst hw
        have habs : alGet hs h = none := by
          rw [alGet_eq_none_iff]
          rw [hk] at hnd
          exact hnd.1
        rw [alRemove_of_absent habs, refsIn_cons]
        omega
      · rw [if_neg hk] at hget ⊢
        rw [refsIn_cons, refsIn_cons]
        have := ih hnd.2 hget
        omega

theorem alGet_mem {l : List (Nat × β)} {k : Nat} {w : β}
    (h : alGet l k = some w) : (k, w) ∈ l := by
  induction l with
  | nil => simp [alGet] at h
  | cons p l ih =>
      obtain ⟨k1, v1⟩ := p
      rw [alGet_cons] at h
      by_cases hk : k1 = k
      · rw [if_pos hk] at h
        have hv : v1 = w := by injection h
        subst hk hv
        exact List.mem_cons_self _ _
      · rw [if_neg hk] at h
        exact List.mem_cons_of_mem _ (ih h)

theorem step_construct {s s1 : SState} {h : HandleId}
    (hstep : step s (SOp.construct h) = some s1) :
    alGet s.handles h = none ∧ s1 = { s with handles := (h, none) :: s.handles } := by
  cases hh : alGet s.handles h with
  | some w => simp [step, hh] at hstep
  | none =>
      simp only [step, hh, Option.some.injEq] at hstep
      exact ⟨rfl, hstep.symm⟩

theorem step_createNew {s s1 : SState} {h : HandleId} {o : ObjId}
    (hstep : step s (SOp.createNew h o) = some s1) :
    (∃ w, alGet s.handles h = some w)
  ∧ alGet s.heap o = none
  ∧ s.destructed.contains o = false
  ∧ s.freed.contains o = false
  ∧ s1 = { s with handles := alSet s.handles h (some o), heap := (o, 1) :: s.heap } := by
  cases hh : alGet s.handles h with
  | none => simp [step, hh] at hstep
  | some w =>
      simp only [step, hh] at hstep
      by_cases hcond : ((alGet s.heap o).isSome || s.destructed.contains o || s.freed.contains o) = true
      · rw [if_pos hcond] at hstep
        exact absurd hstep (by simp)
      · rw [if_neg hcond] at hstep
        have hheap : alGet s.heap o = none := by
          cases hheap2 : alGet s.heap o with
          | none => rfl
          | some c => rw [hheap2] at hcond; simp at hcond
        have hdes : s.destructed.contains o = false := by
          cases hcd : s.destructed.contains o with
          | false => rfl
          | true => rw [hcd] at hcond; simp at hcond
        have hfr : s.freed.contains o = false := by
          cases hcf : s.freed.contains o with
          | false => rfl
          | true => rw [hcf] at hcond; simp at hcond
        rw [Option.some_inj] at hstep
        exact ⟨⟨w, rfl⟩, hheap, hdes, hfr, hstep.symm⟩

theorem step_copy {s s1 : SState} {dst src : HandleId}
    (hstep : step s (SOp.copy dst src) = some s1) :
    alGet s.handles dst = none
  ∧ ((alGet s.handles src = some none ∧ s1 = { s with handles := (dst, none) :: s.handles })
    ∨ (∃ o c, alGet s.handles src = some (some o) ∧ alGet s.heap o = some c
        ∧ s1 = { s with handles := (dst, some o) :: s.handles, heap := alSet s.heap o (c + 1) })) := by
  cases hd : alGet s.handles dst with
  | some w => cases hsv : alGet s.handles src <;> simp [step, hd, hsv] at hstep
  | none =>
      refine ⟨rfl, ?_⟩
      cases hsv : alGet s.handles src with
      | none => simp [step, hd, hsv] at hstep
      | some sv =>
          cases sv with
          | none =>
              simp only [step, hd, hsv, Option.some.injEq] at hstep
              exact Or.inl ⟨rfl, hstep.symm⟩
          | some o =>
              cases hc : alGet s.heap o with
              | none => simp [step, hd, hsv, hc] at hstep
              | some c =>
                  simp only [step, hd, hsv, hc, Option.some.injEq] at hstep
                  exact Or.inr ⟨o, c, rfl, hc, hstep.symm⟩

theorem step_move {s s1 : SState} {dst src : HandleId}
    (hstep : step s (SOp.move dst src) = some s1) :
    alGet s.handles dst = none
  ∧ ∃ sv, alGet s.handles src = some sv
      ∧ s1 = { s with handles := (dst, sv) :: alSet s.handles src none } := by
  cases hd : alGet s.handles dst with
  | some w => cases hsv : alGet s.handles src <;> simp [step, hd, hsv] at hstep
  | none =>
      refine ⟨rfl, ?_⟩
      cases hsv : alGet s.handles src with
      | none => simp [step, hd, hsv] at hstep
      | some sv =>
          simp only [step, hd, hsv, Option.some.injEq] at hstep
          exact ⟨sv, rfl, hstep.symm⟩

theorem step_destroy {s s1 : SState} {h : HandleId}
    (hstep : step s (SOp.destroy h) = some s1) :
    (alGet s.handles h = some none ∧ s1 = { s with handles := alRemove s.handles h })
  ∨ (∃ o c, alGet s.handles h = some (some o) ∧ alGet s.heap o = some c
      ∧ ((c - 1 = 0 ∧ s1 = { s with
            handles := alRemove s.handles h
            heap := alRemove s.heap o
            destructed := s.destructed ++ [o]
            freed := s.freed ++ [o] })
        ∨ (c - 1 ≠ 0 ∧ s1 = { s with handles := alRemove s.handles h, heap := alSet s.heap o (c - 1) }))) := by
  cases hh : alGet s.handles h with
  | none => simp [step, hh] at hstep
  | some hv =>
      cases hv with
      | none =>
          simp only [step, hh, Option.some.injEq] at hstep
          exact Or.inl ⟨rfl, hstep.symm⟩
      | some o =>
          cases hc : alGet s.heap o with
          | none => simp [step, hh, hc] at hstep
          | some c =>
              simp only [step, hh, hc] at hstep
              by_cases hz : c - 1 = 0
              · rw [if_pos hz, Option.some_inj] at hstep
                exact Or.inr ⟨o, c, rfl, hc, Or.inl ⟨hz, hstep.symm⟩⟩
              · rw [if_neg hz, Option.some_inj] at hstep
                exact Or.inr ⟨o, c, rfl, hc, Or.inr ⟨hz, hstep.symm⟩⟩


theorem step_wf {s s1 : SState} {op : SOp} (hstep : step s op = some s1) (hwf : Wf s) : Wf s1 := by
  cases op with
  | construct h =>
      obtain ⟨hh, hs1⟩ := step_construct hstep
      subst hs1
      refine ⟨?_, hwf.2⟩
      simp only [List.map_cons, List.nodup_cons]
      exact ⟨by rwa [← alGet_eq_none_iff], hwf.1⟩
  | createNew h o =>
      obtain ⟨⟨w, hw⟩, hheap, _, _, hs1⟩ := step_createNew hstep
      subst hs1
      constructor
      · show ((alSet s.handles h (some o)).map Prod.fst).Nodup
        rw [alSet_keys]
        exact hwf.1
      · show (((o, 1) :: s.heap).map Prod.fst).Nodup
        simp only [List.map_cons, List.nodup_cons]
        exact ⟨by rwa [← alGet_eq_none_iff], hwf.2⟩
  | copy dst src =>
      obtain ⟨hd, hcase⟩ := step_copy hstep
      rcases hcase with ⟨hsv, hs1⟩ | ⟨o, c, hsv, hc, hs1⟩ <;> subst hs1
      · refine ⟨?_, hwf.2⟩
        simp only [List.map_cons, List.nodup_cons]
        exact ⟨by rwa [← alGet_eq_none_iff], hwf.1⟩
      · constructor
        · show (((dst, some o) :: s.handles).map Prod.fst).Nodup
          simp only [List.map_cons, List.nodup_cons]
          exact ⟨by rwa [← alGet_eq_none_iff], hwf.1⟩
        · show ((alSet s.heap o (c + 1)).map Prod.fst).Nodup
          rw [alSet_keys]
          exact hwf.2
  | move dst src =>
      obtain ⟨hd, sv, hsv, hs1⟩ := step_move hstep
      subst hs1
      refine ⟨?_, hwf.2⟩
      show (((dst, sv) :: alSet s.handles src none).map Prod.fst).Nodup
      simp only [List.map_cons, List.nodup_cons]
      rw [alSet_keys]
      exact ⟨by rwa [← alGet_eq_none_iff], hwf.1⟩
  | destroy h =>
      rcases step_destroy hstep with ⟨hh, hs1⟩ | ⟨o, c, hh, hc, hcase⟩
      · subst hs1
        exact ⟨(alRemove_keys_sublist s.handles h).nodup hwf.1, hwf.2⟩
      · rcases hcase with ⟨hz, hs1⟩ | ⟨hz, hs1⟩ <;> subst hs1
        · exact ⟨(alRemove_keys_sublist s.handles h).nodup hwf.1,
            (alRemove_keys_sublist s.heap o).nodup hwf.2⟩
        · refine ⟨(alRemove_keys_sublist s.handles h).nodup hwf.1, ?_⟩
          show ((alSet s.heap o (c - 1)).map Prod.fst).Nodup
          rw [alSet_keys]
          exact hwf.2

theorem ite_none_eq_some (o : ObjId) :
    (if (none : Option ObjId) = some o then 1 else 0) = 0 := by simp

theorem count_append_self (l : List ObjId) (o : ObjId) :
    (l ++ [o]).count o = l.count o + 1 := by
  simp [List.count_append]

theorem count_append_ne (l : List ObjId) {o o2 : ObjId} (h : o2 ≠ o) :
    (l ++ [o2]).count o = l.count o := by
  have h1 : List.count o [o2] = 0 := by
    simp [List.count_cons, h]
  rw [List.count_append, h1, Nat.add_zero]


theorem step_good {s s1 : SState} {op : SOp} {o : ObjId}
    (hstep : step s op = some s1) (hwf : Wf s)
    (honly : ∀ h1 o1, op = SOp.createNew h1 o1 → o1 = o)
    (hg : GoodObj s o) : GoodObj s1 o := by
  unfold GoodObj SState.refs at hg ⊢
  cases op with
  | construct h =>
      obtain ⟨hh, hs1⟩ := step_construct hstep
      subst hs1
      show GoodState (alGet s.heap o) (refsIn ((h, none) :: s.handles) o)
        (s.destructed.count o) (s.freed.count o)
      rw [refsIn_cons, ite_none_eq_some]
      simpa using hg
  | createNew h1 o1 =>
      have honly1 : o1 = o := honly h1 o1 rfl
      subst honly1
      obtain ⟨⟨w, hw⟩, hheap, hdes, hfr, hs1⟩ := step_createNew hstep
      subst hs1
      have hfrd : refsIn s.handles o1 = 0 ∧ s.destructed.count o1 = 0 ∧ s.freed.count o1 = 0 := by
        rcases hg with ⟨_, h2, h3, h4⟩ | ⟨h1x, _, _, _⟩ | ⟨_, _, h3, _⟩
        · exact ⟨h2, h3, h4⟩
        · rw [h1x] at hheap
          exact absurd hheap (by simp)
        · have hmem : o1 ∈ s.destructed := List.count_pos_iff.mp (by omega)
          have hnmem : o1 ∉ s.destructed := by simpa using hdes
          contradiction
      obtain ⟨hr0, hd0, hf0⟩ := hfrd
      have hwne : w ≠ some o1 := refsIn_eq_zero hr0 (h1, w) (alGet_mem hw)
      have hset := refsIn_alSet (some o1) o1 hwf.1 hw
      rw [if_neg hwne, if_pos rfl] at hset
      show GoodState (alGet ((o1, 1) :: s.heap) o1) (refsIn (alSet s.handles h1 (some o1)) o1)
        (s.destructed.count o1) (s.freed.count o1)
      have hr1 : refsIn (alSet s.handles h1 (some o1)) o1 = 1 := by omega
      rw [alGet_cons, if_pos rfl, hr1]
      right; left
      exact ⟨rfl, le_refl 1, hd0, hf0⟩
  | copy dst src =>
      obtain ⟨hd, hcase⟩ := step_copy hstep
      rcases hcase with ⟨hsv, hs1⟩ | ⟨o2, c2, hsv, hc2, hs1⟩ <;> subst hs1
      · show GoodState (alGet s.heap o) (refsIn ((dst, none) :: s.handles) o)
          (s.destructed.count o) (s.freed.count o)
        rw [refsIn_cons, ite_none_eq_some]
        simpa using hg
      · by_cases ho : o2 = o
        · subst ho
          rcases hg with ⟨hh1, _, _, _⟩ | ⟨hh1, hr1, hd1, hf1⟩ | ⟨hh1, _, _, _⟩
          · rw [hh1] at hc2
            exact absurd hc2 (by simp)
          · have hc2r : refsIn s.handles o2 = c2 := by
              rw [hh1] at hc2
              exact Option.some_inj.mp hc2
            show GoodState (alGet (alSet s.heap o2 (c2 + 1)) o2)
              (refsIn ((dst, some o2) :: s.handles) o2)
              (s.destructed.count o2) (s.freed.count o2)
            rw [alGet_alSet_self (c2 + 1) hc2, refsIn_cons, if_pos rfl, hc2r]
            right; left
            refine ⟨?_, by omega, hd1, hf1⟩
            rw [Nat.add_comm]
          · rw [hh1] at hc2
            exact absurd hc2 (by simp)
        · have hone : o ≠ o2 := fun hx => ho hx.symm
          have hvne : ¬ (some o2 = some o) := by simpa using ho
          show GoodState (alGet (alSet s.heap o2 (c2 + 1)) o)
            (refsIn ((dst, some o2) :: s.handles) o)
            (s.destructed.count o) (s.freed.count o)
          rw [alGet_alSet_ne _ hone, refsIn_cons, if_neg hvne]
          simpa using hg
  | move dst src =>
      obtain ⟨hd, sv, hsv, hs1⟩ := step_move hstep
      subst hs1
      have hset := refsIn_alSet none o hwf.1 hsv
      rw [ite_none_eq_some] at hset
      show GoodState (alGet s.heap o) (refsIn ((dst, sv) :: alSet s.handles src none) o)
        (s.destructed.count o) (s.freed.count o)
      have heq : (if sv = some o then 1 else 0) + refsIn (alSet s.handles src none) o
          = refsIn s.handles o := by omega
      rw [refsIn_cons, heq]
      exact hg
  | destroy h =>
      rcases step_destroy hstep with ⟨hh, hs1⟩ | ⟨o2, c2, hh, hc2, hcase⟩
      · subst hs1
        have hrem := refsIn_alRemove o hwf.1 hh
        rw [ite_none_eq_some] at hrem
        have hre : refsIn (alRemove s.handles h) o = refsIn s.handles o := by omega
        show GoodState (alGet s.heap o) (refsIn (alRemove s.handles h) o)
          (s.destructed.count o) (s.freed.count o)
        rw [hre]
        exact hg
      · rcases hcase with ⟨hz, hs1⟩ | ⟨hz, hs1⟩ <;> subst hs1
        · by_cases ho : o2 = o
          · subst ho
            rcases hg with ⟨hh1, _, _, _⟩ | ⟨hh1, hr1, hd1, hf1⟩ | ⟨hh1, _, _, _⟩
            · rw [hh1] at hc2
              exact absurd hc2 (by simp)
            · have hc2r : refsIn s.handles o2 = c2 := by
                rw [hh1] at hc2
                exact Option.some_inj.mp hc2
              have hrem := refsIn_alRemove o2 hwf.1 hh
              rw [if_pos rfl] at hrem
              have hre : refsIn (alRemove s.handles h) o2 = 0 := by omega
              show GoodState (alGet (alRemove s.heap o2) o2) (refsIn (alRemove s.handles h) o2)
                ((s.destructed ++ [o2]).count o2) ((s.freed ++ [o2]).count o2)
              rw [alGet_alRemove_self, count_append_self, count_append_self, hre]
              right; right
              exact ⟨rfl, rfl, by omega, by omega⟩
            · rw [hh1] at hc2
              exact absurd hc2 (by simp)
          · have hone : o ≠ o2 := fun hx => ho hx.symm
            have hvne : ¬ (some o2 = some o) := by simpa using ho
            have hrem := refsIn_alRemove o hwf.1 hh
            rw [if_neg hvne] at hrem
            have hre : refsIn (alRemove s.handles h) o = refsIn s.handles o := by omega
            show GoodState (alGet (alRemove s.heap o2) o) (refsIn (alRemove s.handles h) o)
              ((s.destructed ++ [o2]).count o) ((s.freed ++ [o2]).count o)
            rw [alGet_alRemove_ne hone, count_append_ne _ ho, count_append_ne _ ho, hre]
            exact hg
        · by_cases ho : o2 = o
          · subst ho
            rcases hg with ⟨hh1, _, _, _⟩ | ⟨hh1, hr1, hd1, hf1⟩ | ⟨hh1, _, _, _⟩
            · rw [hh1] at hc2
              exact absurd hc2 (by simp)
            · have hc2r : refsIn s.handles o2 = c2 := by
                rw [hh1] at hc2
                exact Option.some_inj.mp hc2
              have hrem := refsIn_alRemove o2 hwf.1 hh
              rw [if_pos rfl] at hrem
              have hre : refsIn (alRemove s.handles h) o2 = c2 - 1 := by omega
              show GoodState (alGet (alSet s.heap o2 (c2 - 1)) o2) (refsIn (alRemove s.handles h) o2)
                (s.destructed.count o2) (s.freed.count o2)
              rw [alGet_alSet_self (c2 - 1) hc2, hre]
              right; left
              exact ⟨rfl, by omega, hd1, hf1⟩
            · rw [hh1] at hc2
              exact absurd hc2 (by simp)
          · have hone : o ≠ o2 := fun hx => ho hx.symm
            have hvne : ¬ (some o2 = some o) := by simpa using ho
            have hrem := refsIn_alRemove o hwf.1 hh
            rw [if_neg hvne] at hrem
            have hre : refsIn (alRemove s.handles h) o = refsIn s.handles o := by omega
            show GoodState (alGet (alSet s.heap o2 (c2 - 1)) o) (refsIn (alRemove s.handles h) o)
              (s.destructed.count o) (s.freed.count o)
            rw [alGet_alSet_ne _ hone, hre]
            exact hg


theorem step_created {s s1 : SState} {op : SOp} {o : ObjId}
    (hstep : step s op = some s1) (hc : Created s o) : Created s1 o := by
  unfold Created at hc ⊢
  cases op with
  | construct h =>
      obtain ⟨hh, hs1⟩ := step_construct hstep
      subst hs1
      exact hc
  | createNew h1 o1 =>
      obtain ⟨⟨w, hw⟩, hheap, hdes, hfr, hs1⟩ := step_createNew hstep
      subst hs1
      by_cases ho : o1 = o
      · subst ho
        left
        show (alGet ((o1, 1) :: s.heap) o1).isSome = true
        rw [alGet_cons, if_pos rfl]
        rfl
      · rcases hc with hl | hr
        · left
          show (alGet ((o1, 1) :: s.heap) o).isSome = true
          rw [alGet_cons, if_neg ho]
          exact hl
        · right
          exact hr
  | copy dst src =>
      obtain ⟨hd, hcase⟩ := step_copy hstep
      rcases hcase with ⟨hsv, hs1⟩ | ⟨o2, c2, hsv, hc2, hs1⟩ <;> subst hs1
      · exact hc
      · rcases hc with hl | hr
        · left
          show (alGet (alSet s.heap o2 (c2 + 1)) o).isSome = true
          by_cases ho : o2 = o
          · subst ho
            rw [alGet_alSet_self (c2 + 1) hc2]
            rfl
          · rw [alGet_alSet_ne _ (fun hx => ho hx.symm)]
            exact hl
        · right
          exact hr
  | move dst src =>
      obtain ⟨hd, sv, hsv, hs1⟩ := step_move hstep
      subst hs1
      exact hc
  | destroy h =>
      rcases step_destroy hstep with ⟨hh, hs1⟩ | ⟨o2, c2, hh, hc2, hcase⟩
      · subst hs1
        exact hc
      · rcases hcase with ⟨hz, hs1⟩ | ⟨hz, hs1⟩ <;> subst hs1
        · by_cases ho : o2 = o
          · subst ho
            right
            show 1 ≤ (s.destructed ++ [o2]).count o2
            simp [List.count_append]
          · rcases hc with hl | hr
            · left
              show (alGet (alRemove s.heap o2) o).isSome = true
              rw [alGet_alRemove_ne (fun hx => ho hx.symm)]
              exact hl
            · right
              show 1 ≤ (s.destructed ++ [o2]).count o
              rw [List.count_append]
              omega
        · rcases hc with hl | hr
          · left
            show (alGet (alSet s.heap o2 (c2 - 1)) o).isSome = true
            by_cases ho : o2 = o
            · subst ho
              rw [alGet_alSet_self (c2 - 1) hc2]
              rfl
            · rw [alGet_alSet_ne _ (fun hx => ho hx.symm)]
              exact hl
          · right
            exact hr

theorem createTargets_cons (op : SOp) (ops : List SOp) :
    createTargets (op :: ops)
      = (match op with
          | SOp.createNew _ o1 => [o1]
          | _ => []) ++ createTargets ops := by
  cases op <;> simp [createTargets, List.filterMap_cons]

theorem createTargets_append (p q : List SOp) :
    createTargets (p ++ q) = createTargets p ++ createTargets q := by
  simp [createTargets, List.filterMap_append]

theorem run_good_wf (ops : List SOp) : ∀ (s sf : SState) (o : ObjId), Wf s → GoodObj s o →
    (∀ o1 ∈ createTargets ops, o1 = o) → run s ops = some sf → GoodObj sf o ∧ Wf sf := by
  induction ops with
  | nil =>
      intro s sf o hwf hg _ hrun
      simp only [run, Option.some_inj] at hrun
      subst hrun
      exact ⟨hg, hwf⟩
  | cons op ops ih =>
      intro s sf o hwf hg honly hrun
      simp only [run] at hrun
      cases hstep : step s op with
      | none =>
          rw [hstep] at hrun
          simp at hrun
      | some s1 =>
          rw [hstep] at hrun
          have honlyHead : ∀ h1 o1, op = SOp.createNew h1 o1 → o1 = o := by
            intro h1 o1 hop
            apply honly
            subst hop
            rw [createTargets_cons]
            simp
          have honlyTail : ∀ o1 ∈ createTargets ops, o1 = o := by
            intro o1 hmem
            apply honly
            rw [createTargets_cons, List.mem_append]
            exact Or.inr hmem
          exact ih s1 sf o (step_wf hstep hwf) (step_good hstep hwf honlyHead hg) honlyTail hrun

theorem run_created (ops : List SOp) : ∀ (s sf : SState) (o : ObjId), Created s o →
    run s ops = some sf → Created sf o := by
  induction ops with
  | nil =>
      intro s sf o hc hrun
      simp only [run, Option.some_inj] at hrun
      subst hrun
      exact hc
  | cons op ops ih =>
      intro s sf o hc hrun
      simp only [run] at hrun
      cases hstep : step s op with
      | none =>
          rw [hstep] at hrun
          simp at hrun
      | some s1 =>
          rw [hstep] at hrun
          exact ih s1 sf o (step_created hstep hc) hrun

theorem run_creates (ops : List SOp) : ∀ (s sf : SState) (o : ObjId),
    run s ops = some sf → o ∈ createTargets ops → Created sf o := by
  induction ops with
  | nil =>
      intro s sf o _ hmem
      simp [createTargets] at hmem
  | cons op ops ih =>
      intro s sf o hrun hmem
      simp only [run] at hrun
      cases hstep : step s op with
      | none =>
          rw [hstep] at hrun
          simp at hrun
      | some s1 =>
          rw [hstep] at hrun
          rw [createTargets_cons, List.mem_append] at hmem
          rcases hmem with hhead | htail
          · cases op with
            | createNew h1 o1 =>
                have homem : o = o1 := by simpa using hhead
                subst homem
                obtain ⟨_, _, _, _, hs1⟩ := step_createNew hstep
                subst hs1
                refine run_created ops _ sf o ?_ hrun
                left
                show (alGet ((o, 1) :: s.heap) o).isSome = true
                rw [alGet_cons, if_pos rfl]
                rfl
            | construct h => simp at hhead
            | copy dst src => simp at hhead
            | move dst src => simp at hhead
            | destroy h => simp at hhead
          · exact ih s1 sf o hrun htail

instance decCreated (s : SState) (o : ObjId) : Decidable (Created s o) :=
  decidable_of_iff ((alGet s.heap o).isSome = true ∨ 1 ≤ s.destructed.count o) Iff.rfl

/-- C1: over any single-threaded trace of default constructions, one
successful `CreateShared`, copies, moves and destructions in which every
created block is the single object `o`, once no live handle refers to `o`
any more the payload destructor has run exactly once and the single shared
allocation has been released exactly once; at every intermediate point the
destructor has run (once) precisely when the object exists and the last
referring handle has been destroyed, with the release happening at that
same point; and destroying an empty handle only discards the handle (no
count, destructor, or free is touched). -/
theorem shared_lifecycle (ops : List SOp) (o : ObjId) (h0 : HandleId) (sf : SState)
    (hrun : run initState ops = some sf)
    (honly : ∀ o1 ∈ createTargets ops, o1 = o)
    (hcreated : SOp.createNew h0 o ∈ ops)
    (hend : sf.refs o = 0) :
    sf.destructed.count o = 1
  ∧ sf.freed.count o = 1
  ∧ (∀ (p q : List SOp) (s1 : SState), ops = p ++ q → run initState p = some s1 →
        (s1.destructed.count o = if Created s1 o ∧ s1.refs o = 0 then 1 else 0)
      ∧ s1.freed.count o = s1.destructed.count o)
  ∧ (∀ (s : SState) (h : HandleId), alGet s.handles h = some none →
        step s (SOp.destroy h) = some { s with handles := alRemove s.handles h }) := by
  have hwfinit : Wf initState := ⟨List.nodup_nil, List.nodup_nil⟩
  have hginit : GoodObj initState o := Or.inl ⟨rfl, rfl, rfl, rfl⟩
  have hgf := (run_good_wf ops initState sf o hwfinit hginit honly hrun).1
  have hcf : Created sf o := by
    refine run_creates ops initState sf o hrun ?_
    exact List.mem_filterMap.mpr ⟨SOp.createNew h0 o, hcreated, rfl⟩
  have hmain : sf.destructed.count o = 1 ∧ sf.freed.count o = 1 := by
    rcases hgf with ⟨h1, h2, h3, h4⟩ | ⟨h1, h2, h3, h4⟩ | ⟨h1, h2, h3, h4⟩
    · rcases hcf with hcl | hcr
      · rw [h1] at hcl
        exact absurd hcl (by simp)
      · omega
    · omega
    · exact ⟨h3, h4⟩
  refine ⟨hmain.1, hmain.2, ?_, ?_⟩
  · intro p q s1 heq hp
    have honlyp : ∀ o1 ∈ createTargets p, o1 = o := by
      intro o1 hmem
      apply honly
      subst heq
      rw [createTargets_append, List.mem_append]
      exact Or.inl hmem
    have hg1 := (run_good_wf p initState s1 o hwfinit hginit honlyp hp).1
    rcases hg1 with ⟨h1, h2, h3, h4⟩ | ⟨h1, h2, h3, h4⟩ | ⟨h1, h2, h3, h4⟩
    · refine ⟨?_, by omega⟩
      rw [h3, if_neg]
      rintro ⟨hcx, _⟩
      rcases hcx with hcl | hcr
      · rw [h1] at hcl
        exact absurd hcl (by simp)
      · omega
    · refine ⟨?_, by omega⟩
      rw [h3, if_neg]
      rintro ⟨_, hr0⟩
      omega
    · refine ⟨?_, by omega⟩
      rw [h3, if_pos]
      exact ⟨Or.inr (by omega), h2⟩
  · intro s h hh
    simp [step, hh]

/-- C1 witness instance: the trace create, copy, destroy original, destroy
copy on object 7 — after the last destroy the destructor and the release
have each happened exactly once. -/
theorem shared_lifecycle_witness :
    (run initState [SOp.construct 0, SOp.createNew 0 7, SOp.copy 1 0, SOp.destroy 0, SOp.destroy 1]
        = some ⟨[], [], [7], [7]⟩
      ∧ (∀ o1 ∈ createTargets [SOp.construct 0, SOp.createNew 0 7, SOp.copy 1 0, SOp.destroy 0, SOp.destroy 1], o1 = 7)
      ∧ SOp.createNew 0 7 ∈ [SOp.construct 0, SOp.createNew 0 7, SOp.copy 1 0, SOp.destroy 0, SOp.destroy 1]
      ∧ (⟨[], [], [7], [7]⟩ : SState).refs 7 = 0)
  ∧ (⟨[], [], [7], [7]⟩ : SState).destructed.count 7 = 1
  ∧ (⟨[], [], [7], [7]⟩ : SState).freed.count 7 = 1 :=
  ⟨⟨by decide, by decide, by decide, by decide⟩,
    (shared_lifecycle [SOp.construct 0, SOp.createNew 0 7, SOp.copy 1 0, SOp.destroy 0, SOp.destroy 1]
      7 0 ⟨[], [], [7], [7]⟩ (by decide) (by decide) (by decide) (by decide)).1,
    (shared_lifecycle [SOp.construct 0, SOp.createNew 0 7, SOp.copy 1 0, SOp.destroy 0, SOp.destroy 1]
      7 0 ⟨[], [], [7], [7]⟩ (by decide) (by decide) (by decide) (by decide)).2.1⟩

/-- C9: a successful `CreateShared` into a handle that currently refers to
the object `o` overwrites the handle's `value`/`referenceCount` pointers
with the fresh block, does not decrement `o`'s shared count, and leaves
`o`'s count word, destructor status and allocation untouched, even though
one fewer live handle now refers to `o`. -/
theorem createShared_overwrite_no_decrement (s s1 : SState) (h : HandleId) (o o1 : ObjId)
    (hwf : Wf s)
    (hold : alGet s.handles h = some (some o))
    (hne : o1 ≠ o)
    (hstep : step s (SOp.createNew h o1) = some s1) :
    alGet s1.handles h = some (some o1)
  ∧ alGet s1.heap o = alGet s.heap o
  ∧ s1.destructed.count o = s.destructed.count o
  ∧ s1.freed.count o = s.freed.count o
  ∧ s1.refs o + 1 = s.refs o := by
  obtain ⟨⟨w, hw⟩, hheap, hdes, hfr, hs1⟩ := step_createNew hstep
  subst hs1
  refine ⟨?_, ?_, rfl, rfl, ?_⟩
  · exact alGet_alSet_self (some o1) hold
  · show alGet ((o1, 1) :: s.heap) o = alGet s.heap o
    rw [alGet_cons, if_neg hne]
  · have hset := refsIn_alSet (some o1) o hwf.1 hold
    rw [if_pos rfl, if_neg (by simpa using hne)] at hset
    show refsIn (alSet s.handles h (some o1)) o + 1 = refsIn s.handles o
    omega

/-- C9 witness instance: handle 0 refers to object 1 (count 1);
`CreateShared` of object 2 into handle 0 leaves object 1's count word at 1,
never destroys or frees it, and handle 0 now refers to object 2. -/
theorem createShared_overwrite_witness :
    (Wf (⟨[(0, some 1)], [(1, 1)], [], []⟩ : SState)
      ∧ alGet (⟨[(0, some 1)], [(1, 1)], [], []⟩ : SState).handles 0 = some (some 1)
      ∧ (2 : ObjId) ≠ 1
      ∧ step (⟨[(0, some 1)], [(1, 1)], [], []⟩ : SState) (SOp.createNew 0 2)
          = some ⟨[(0, some 2)], [(2, 1), (1, 1)], [], []⟩)
  ∧ (alGet (⟨[(0, some 2)], [(2, 1), (1, 1)], [], []⟩ : SState).handles 0 = some (some 2)
      ∧ alGet (⟨[(0, some 2)], [(2, 1), (1, 1)], [], []⟩ : SState).heap 1
          = alGet (⟨[(0, some 1)], [(1, 1)], [], []⟩ : SState).heap 1
      ∧ (⟨[(0, some 2)], [(2, 1), (1, 1)], [], []⟩ : SState).destructed.count 1
          = (⟨[(0, some 1)], [(1, 1)], [], []⟩ : SState).destructed.count 1
      ∧ (⟨[(0, some 2)], [(2, 1), (1, 1)], [], []⟩ : SState).freed.count 1
          = (⟨[(0, some 1)], [(1, 1)], [], []⟩ : SState).freed.count 1
      ∧ (⟨[(0, some 2)], [(2, 1), (1, 1)], [], []⟩ : SState).refs 1 + 1
          = (⟨[(0, some 1)], [(1, 1)], [], []⟩ : SState).refs 1) :=
  ⟨⟨⟨by decide, by decide⟩, by decide, by decide, by decide⟩,
    createShared_overwrite_no_decrement ⟨[(0, some 1)], [(1, 1)], [], []⟩
      ⟨[(0, some 2)], [(2, 1), (1, 1)], [], []⟩ 0 1 2
      ⟨by decide, by decide⟩ (by decide) (by decide) (by decide)⟩

/-- C2 counterexample: handle 0 holds the sole reference to object 1
(count 1); reassigning handle 0 away from object 1 — the only reassignment
the type permits, a second `CreateShared` into it — leaves object 1's count
at 1 instead of decrementing it to 0, and object 1 is never destroyed nor
its allocation released even though no handle refers to it any more. -/
theorem reassign_away_counterexample :
    run initState [SOp.construct 0, SOp.createNew 0 1, SOp.createNew 0 2]
        = some ⟨[(0, some 2)], [(2, 1), (1, 1)], [], []⟩
  ∧ alGet (⟨[(0, some 2)], [(2, 1), (1, 1)], [], []⟩ : SState).heap 1 = some 1
  ∧ (⟨[(0, some 2)], [(2, 1), (1, 1)], [], []⟩ : SState).refs 1 = 0
  ∧ (⟨[(0, some 2)], [(2, 1), (1, 1)], [], []⟩ : SState).destructed.count 1 = 0
  ∧ (⟨[(0, some 2)], [(2, 1), (1, 1)], [], []⟩ : SState).freed.count 1 = 0 := by decide

/-- One step's destroyed handle, if the operation is a destruction. -/
def destroyTarget : SOp → Option HandleId
  | .destroy h => some h
  | _ => none

/-- C2 amended: `Shared` provides no assignment operator (the user-declared
move constructor deletes the implicit copy assignment), so the only way a
handle is reassigned away from its object is `CreateShared`, which performs
no decrement.  A live object's count is decremented, by exactly 1, only
when a handle referring to it is destroyed, and the object is destroyed and
its single allocation released precisely when such a decrement brings the
count to 0; every other operation leaves the count no smaller and the
destructor/release history unchanged. -/
theorem count_decrement_only_on_destroy (s s1 : SState) (op : SOp) (o : ObjId) (c : Nat)
    (hstep : step s op = some s1)
    (hc : alGet s.heap o = some c)
    (hcpos : 1 ≤ c) :
    (∀ h, destroyTarget op = some h → alGet s.handles h = some (some o) →
        (c = 1 →
            alGet s1.heap o = none
          ∧ s1.destructed.count o = s.destructed.count o + 1
          ∧ s1.freed.count o = s.freed.count o + 1)
      ∧ (c ≠ 1 →
            alGet s1.heap o = some (c - 1)
          ∧ s1.destructed.count o = s.destructed.count o
          ∧ s1.freed.count o = s.freed.count o))
  ∧ (∀ h, destroyTarget op = some h → alGet s.handles h ≠ some (some o) →
        alGet s1.heap o = alGet s.heap o
      ∧ s1.destructed.count o = s.destructed.count o
      ∧ s1.freed.count o = s.freed.count o)
  ∧ (destroyTarget op = none →
        (∃ c1, alGet s1.heap o = some c1 ∧ c ≤ c1)
      ∧ s1.destructed.count o = s.destructed.count o
      ∧ s1.freed.count o = s.freed.count o) := by
  refine ⟨?_, ?_, ?_⟩
  · intro h htgt hhandle
    cases op with
    | construct h1 => simp [destroyTarget] at htgt
    | createNew h1 o1 => simp [destroyTarget] at htgt
    | copy dst src => simp [destroyTarget] at htgt
    | move dst src => simp [destroyTarget] at htgt
    | destroy h1 =>
        have hh1 : h1 = h := by simpa [destroyTarget] using htgt
        subst hh1
        rcases step_destroy hstep with ⟨hh, hs1⟩ | ⟨o2, c2, hh, hc2, hcase⟩
        · rw [hh] at hhandle
          exact absurd hhandle (by simp)
        · have ho2 : o2 = o := by
            rw [hh] at hhandle
            simpa using hhandle
          subst ho2
          have hcc : c2 = c := by
            rw [hc2] at hc
            exact Option.some_inj.mp hc
          subst hcc
          rcases hcase with ⟨hz, hs1⟩ | ⟨hz, hs1⟩ <;> subst hs1
          · constructor
            · intro hc1
              refine ⟨?_, ?_, ?_⟩
              · exact alGet_alRemove_self s.heap o2
              · exact count_append_self s.destructed o2
              · exact count_append_self s.freed o2
            · intro hc1
              omega
          · constructor
            · intro hc1
              omega
            · intro hc1
              refine ⟨?_, rfl, rfl⟩
              exact alGet_alSet_self (c2 - 1) hc2
  · intro h htgt hhandle
    cases op with
    | construct h1 => simp [destroyTarget] at htgt
    | createNew h1 o1 => simp [destroyTarget] at htgt
    | copy dst src => simp [destroyTarget] at htgt
    | move dst src => simp [destroyTarget] at htgt
    | destroy h1 =>
        have hh1 : h1 = h := by simpa [destroyTarget] using htgt
        subst hh1
        rcases step_destroy hstep with ⟨hh, hs1⟩ | ⟨o2, c2, hh, hc2, hcase⟩
        · subst hs1
          exact ⟨rfl, rfl, rfl⟩
        · have ho2 : o2 ≠ o := by
            intro hx
            subst hx
            exact hhandle hh
          rcases hcase with ⟨hz, hs1⟩ | ⟨hz, hs1⟩ <;> subst hs1
          · refine ⟨?_, ?_, ?_⟩
            · exact alGet_alRemove_ne (fun hx => ho2 hx.symm)
            · exact count_append_ne _ ho2
            · exact count_append_ne _ ho2
          · refine ⟨?_, rfl, rfl⟩
            exact alGet_alSet_ne _ (fun hx => ho2 hx.symm)
  · intro htgt
    cases op with
    | construct h1 =>
        obtain ⟨hh, hs1⟩ := step_construct hstep
        subst hs1
        exact ⟨⟨c, hc, le_refl c⟩, rfl, rfl⟩
    | createNew h1 o1 =>
        obtain ⟨⟨w, hw⟩, hheap, hdes, hfr, hs1⟩ := step_createNew hstep
        subst hs1
        have ho1 : o1 ≠ o := by
          intro hx
          subst hx
          rw [hheap] at hc
          exact absurd hc (by simp)
        refine ⟨⟨c, ?_, le_refl c⟩, rfl, rfl⟩
        show alGet ((o1, 1) :: s.heap) o = some c
        rw [alGet_cons, if_neg ho1]
        exact hc
    | copy dst src =>
        obtain ⟨hd, hcase⟩ := step_copy hstep
        rcases hcase with ⟨hsv, hs1⟩ | ⟨o2, c2, hsv, hc2, hs1⟩ <;> subst hs1
        · exact ⟨⟨c, hc, le_refl c⟩, rfl, rfl⟩
        · by_cases ho : o2 = o
          · subst ho
            have hcc : c2 = c := by
              rw [hc2] at hc
              exact Option.some_inj.mp hc
            subst hcc
            refine ⟨⟨c2 + 1, ?_, by omega⟩, rfl, rfl⟩
            exact alGet_alSet_self (c2 + 1) hc2
          · refine ⟨⟨c, ?_, le_refl c⟩, rfl, rfl⟩
            rw [alGet_alSet_ne _ (fun hx => ho hx.symm)]
            exact hc
    | move dst src =>
        obtain ⟨hd, sv, hsv, hs1⟩ := step_move hstep
        subst hs1
        exact ⟨⟨c, hc, le_refl c⟩, rfl, rfl⟩
    | destroy h1 => simp [destroyTarget] at htgt

/-- C2 witness instance: handles 0 and 1 both refer to object 1 (count 2);
destroying handle 1 decrements the count to 1 and neither destroys nor
frees the object. -/
theorem count_decrement_witness :
    (step (⟨[(1, some 1), (0, some 1)], [(1, 2)], [], []⟩ : SState) (SOp.destroy 1)
        = some ⟨[(0, some 1)], [(1, 1)], [], []⟩
      ∧ alGet (⟨[(1, some 1), (0, some 1)], [(1, 2)], [], []⟩ : SState).heap 1 = some 2
      ∧ (1 : Nat) ≤ 2
      ∧ destroyTarget (SOp.destroy 1) = some 1
      ∧ alGet (⟨[(1, some 1), (0, some 1)], [(1, 2)], [], []⟩ : SState).handles 1 = some (some 1)
      ∧ (2 : Nat) ≠ 1)
  ∧ (alGet (⟨[(0, some 1)], [(1, 1)], [], []⟩ : SState).heap 1 = some (2 - 1)
      ∧ (⟨[(0, some 1)], [(1, 1)], [], []⟩ : SState).destructed.count 1
          = (⟨[(1, some 1), (0, some 1)], [(1, 2)], [], []⟩ : SState).destructed.count 1
      ∧ (⟨[(0, some 1)], [(1, 1)], [], []⟩ : SState).freed.count 1
          = (⟨[(1, some 1), (0, some 1)], [(1, 2)], [], []⟩ : SState).freed.count 1) :=
  ⟨⟨by decide, by decide, by decide, by decide, by decide, by decide⟩,
    ((count_decrement_only_on_destroy ⟨[(1, some 1), (0, some 1)], [(1, 2)], [], []⟩
        ⟨[(0, some 1)], [(1, 1)], [], []⟩ (SOp.destroy 1) 1 2
        (by decide) (by decide) (by decide)).1 1 (by decide) (by decide)).2 (by decide)⟩

/-- C4: copying from a handle that refers to object `o` makes the new
handle refer to `o` and increments `o`'s count by exactly 1 (no other
object's count is touched); copying from an empty handle yields an empty
handle and leaves the heap untouched; and the only operations that ever
increase a shared count are such a copy (by exactly 1) and `CreateShared`
bringing a fresh object into existence with count 1. -/
theorem copy_contract (s s1 : SState) (op : SOp)
    (hstep : step s op = some s1) :
    (∀ dst src, op = SOp.copy dst src →
        (alGet s.handles src = some none →
            alGet s1.handles dst = some none ∧ s1.heap = s.heap)
      ∧ (∀ o, alGet s.handles src = some (some o) →
            alGet s1.handles dst = some (some o)
          ∧ (∀ c, alGet s.heap o = some c → alGet s1.heap o = some (c + 1))
          ∧ (∀ o2, o2 ≠ o → alGet s1.heap o2 = alGet s.heap o2)))
  ∧ (∀ o c c1, alGet s.heap o = some c → alGet s1.heap o = some c1 → c < c1 →
        ∃ dst src, op = SOp.copy dst src ∧ alGet s.handles src = some (some o) ∧ c1 = c + 1)
  ∧ (∀ o c1, alGet s.heap o = none → alGet s1.heap o = some c1 →
        (∃ h1, op = SOp.createNew h1 o) ∧ c1 = 1) := by
  refine ⟨?_, ?_, ?_⟩
  · intro dst src hop
    subst hop
    obtain ⟨hd, hcase⟩ := step_copy hstep
    rcases hcase with ⟨hsv, hs1⟩ | ⟨o2, c2, hsv, hc2, hs1⟩ <;> subst hs1
    · constructor
      · intro hsrc
        refine ⟨?_, rfl⟩
        show alGet ((dst, none) :: s.handles) dst = some none
        rw [alGet_cons, if_pos rfl]
      · intro o hsrc
        rw [hsv] at hsrc
        exact absurd hsrc (by simp)
    · constructor
      · intro hsrc
        rw [hsv] at hsrc
        exact absurd hsrc (by simp)
      · intro o hsrc
        have ho2 : o2 = o := by
          rw [hsv] at hsrc
          simpa using hsrc
        subst ho2
        refine ⟨?_, ?_, ?_⟩
        · show alGet ((dst, some o2) :: s.handles) dst = some (some o2)
          rw [alGet_cons, if_pos rfl]
        · intro c hcx
          have hcc : c2 = c := by
            rw [hc2] at hcx
            exact Option.some_inj.mp hcx
          subst hcc
          show alGet (alSet s.heap o2 (c2 + 1)) o2 = some (c2 + 1)
          exact alGet_alSet_self (c2 + 1) hc2
        · intro o3 ho3
          show alGet (alSet s.heap o2 (c2 + 1)) o3 = alGet s.heap o3
          exact alGet_alSet_ne _ ho3
  · intro o c c1 hc hc1 hlt
    cases op with
    | construct h1 =>
        obtain ⟨hh, hs1⟩ := step_construct hstep
        subst hs1
        rw [hc] at hc1
        have : c = c1 := Option.some_inj.mp hc1
        omega
    | createNew h1 o1 =>
        obtain ⟨⟨w, hw⟩, hheap, hdes, hfr, hs1⟩ := step_createNew hstep
        subst hs1
        by_cases ho : o1 = o
        · subst ho
          rw [hheap] at hc
          exact absurd hc (by simp)
        · rw [show alGet ((o1, 1) :: s.heap) o = alGet s.heap o from by rw [alGet_cons, if_neg ho]]
            at hc1
          rw [hc] at hc1
          have : c = c1 := Option.some_inj.mp hc1
          omega
    | copy dst src =>
        obtain ⟨hd, hcase⟩ := step_copy hstep
        rcases hcase with ⟨hsv, hs1⟩ | ⟨o2, c2, hsv, hc2, hs1⟩ <;> subst hs1
        · rw [hc] at hc1
          have : c = c1 := Option.some_inj.mp hc1
          omega
        · by_cases ho : o2 = o
          · subst ho
            have hcc : c2 = c := by
              rw [hc2] at hc
              exact Option.some_inj.mp hc
            subst hcc
            have heq : alGet (alSet s.heap o2 (c2 + 1)) o2 = some (c2 + 1) :=
              alGet_alSet_self (c2 + 1) hc2
            rw [heq] at hc1
            exact ⟨dst, src, rfl, hsv, (Option.some_inj.mp hc1).symm⟩
          · rw [alGet_alSet_ne _ (fun hx => ho hx.symm)] at hc1
            rw [hc] at hc1
            have : c = c1 := Option.some_inj.mp hc1
            omega
    | move dst src =>
        obtain ⟨hd, sv, hsv, hs1⟩ := step_move hstep
        subst hs1
        rw [hc] at hc1
        have : c = c1 := Option.some_inj.mp hc1
        omega
    | destroy h1 =>
        rcases step_destroy hstep with ⟨hh, hs1⟩ | ⟨o2, c2, hh, hc2, hcase⟩
        · subst hs1
          rw [hc] at hc1
          have : c = c1 := Option.some_inj.mp hc1
          omega
        · rcases hcase with ⟨hz, hs1⟩ | ⟨hz, hs1⟩ <;> subst hs1
          · by_cases ho : o2 = o
            · subst ho
              rw [alGet_alRemove_self] at hc1
              exact absurd hc1 (by simp)
            · rw [alGet_alRemove_ne (fun hx => ho hx.symm)] at hc1
              rw [hc] at hc1
              have : c = c1 := Option.some_inj.mp hc1
              omega
          · by_cases ho : o2 = o
            · subst ho
              have hcc : c2 = c := by
                rw [hc2] at hc
                exact Option.some_inj.mp hc
              subst hcc
              rw [alGet_alSet_self (c2 - 1) hc2] at hc1
              have : c2 - 1 = c1 := Option.some_inj.mp hc1
              omega
            · rw [alGet_alSet_ne _ (fun hx => ho hx.symm)] at hc1
              rw [hc] at hc1
              have : c = c1 := Option.some_inj.mp hc1
              omega
  · intro o c1 hc hc1
    cases op with
    | construct h1 =>
        obtain ⟨hh, hs1⟩ := step_construct hstep
        subst hs1
        rw [hc] at hc1
        exact absurd hc1 (by simp)
    | createNew h1 o1 =>
        obtain ⟨⟨w, hw⟩, hheap, hdes, hfr, hs1⟩ := step_createNew hstep
        subst hs1
        by_cases ho : o1 = o
        · subst ho
          have h1eq : alGet ((o1, 1) :: s.heap) o1 = some 1 := by
            rw [alGet_cons, if_pos rfl]
          rw [h1eq] at hc1
          exact ⟨⟨h1, rfl⟩, (Option.some_inj.mp hc1).symm⟩
        · rw [show alGet ((o1, 1) :: s.heap) o = alGet s.heap o from by rw [alGet_cons, if_neg ho]]
            at hc1
          rw [hc] at hc1
          exact absurd hc1 (by simp)
    | copy dst src =>
        obtain ⟨hd, hcase⟩ := step_copy hstep
        rcases hcase with ⟨hsv, hs1⟩ | ⟨o2, c2, hsv, hc2, hs1⟩ <;> subst hs1
        · rw [hc] at hc1
          exact absurd hc1 (by simp)
        · by_cases ho : o2 = o
          · subst ho
            rw [hc2] at hc
            exact absurd hc (by simp)
          · rw [alGet_alSet_ne _ (fun hx => ho hx.symm)] at hc1
            rw [hc] at hc1
            exact absurd hc1 (by simp)
    | move dst src =>
        obtain ⟨hd, sv, hsv, hs1⟩ := step_move hstep
        subst hs1
        rw [hc] at hc1
        exact absurd hc1 (by simp)
    | destroy h1 =>
        rcases step_destroy hstep with ⟨hh, hs1⟩ | ⟨o2, c2, hh, hc2, hcase⟩
        · subst hs1
          rw [hc] at hc1
          exact absurd hc1 (by simp)
        · rcases hcase with ⟨hz, hs1⟩ | ⟨hz, hs1⟩ <;> subst hs1
          · by_cases ho : o2 = o
            · subst ho
              rw [hc2] at hc
              exact absurd hc (by simp)
            · rw [alGet_alRemove_ne (fun hx => ho hx.symm)] at hc1
              rw [hc] at hc1
              exact absurd hc1 (by simp)
          · by_cases ho : o2 = o
            · subst ho
              rw [hc2] at hc
              exact absurd hc (by simp)
            · rw [alGet_alSet_ne _ (fun hx => ho hx.symm)] at hc1
              rw [hc] at hc1
              exact absurd hc1 (by simp)

/-- C4 witness instance: copying handle 0 (which refers to object 5, count 1)
into the fresh handle 2 makes handle 2 refer to object 5 and raises the
count to 2. -/
theorem copy_contract_witness :
    (step (⟨[(1, none), (0, some 5)], [(5, 1)], [], []⟩ : SState) (SOp.copy 2 0)
        = some ⟨[(2, some 5), (1, none), (0, some 5)], [(5, 2)], [], []⟩
      ∧ alGet (⟨[(1, none), (0, some 5)], [(5, 1)], [], []⟩ : SState).handles 0 = some (some 5)
      ∧ alGet (⟨[(1, none), (0, some 5)], [(5, 1)], [], []⟩ : SState).heap 5 = some 1)
  ∧ (alGet (⟨[(2, some 5), (1, none), (0, some 5)], [(5, 2)], [], []⟩ : SState).handles 2
        = some (some 5)
      ∧ alGet (⟨[(2, some 5), (1, none), (0, some 5)], [(5, 2)], [], []⟩ : SState).heap 5
        = some (1 + 1)) :=
  ⟨⟨by decide, by decide, by decide⟩,
    ((copy_contract ⟨[(1, none), (0, some 5)], [(5, 1)], [], []⟩
        ⟨[(2, some 5), (1, none), (0, some 5)], [(5, 2)], [], []⟩ (SOp.copy 2 0)
        (by decide)).1 2 0 rfl).2 5 (by decide) |>.imp id
      (fun hx => hx.1 1 (by decide))⟩

end Slr
